import Mathlib

/-!
Verification of RBackupPy against its specification.

The Python sources are shallowly embedded below.  Strings are modelled as
`List Char` (`Str`), the process environment as a function
`String-as-Str → Option Str`, and fallible code as `Except`.  Every
definition is transcribed from the corresponding Python function; the
source file and line are given in each doc comment.

Modelling conventions (Python-specific behaviours made explicit):
* `os.path.expandvars`, `str.strip`, `str.replace`, `os.path.normpath`,
  `os.path.join` and `pathlib.PurePosixPath` are embedded for a POSIX
  platform (the `platform.system() == 'windows'` branch of
  `posix_path` is a no-op on POSIX since all backslashes were already
  replaced before `normpath` runs).
* `re.match` patterns used by the code are embedded by their exact
  matching semantics, including the `.` wildcard in `(.exe)?`
  (`$` also accepting a trailing newline is not modelled; no claim
  involves newlines).
* Python truthiness of strings/lists is `≠ empty`; of `None` it is false.
-/

/-- Characters of a Python `str`. -/
abbrev Str := List Char

/-- Shorthand turning a Lean string literal into its character list. -/
def S (s : String) : Str := s.data

/-- The process environment (`os.environ`) as seen by `os.path.expandvars`
and by `env_set`/`env_restore`: a total map from variable names to an
optional value (`none` = variable not set). -/
abbrev VEnv := Str → Option Str

/-- Python `str.isspace` for the ASCII whitespace characters that
`str.strip()` removes. -/
def pyIsSpace (c : Char) : Bool :=
  c = ' ' ∨ c = '\t' ∨ c = '\n' ∨ c = '\r' ∨ c = '\x0b' ∨ c = '\x0c'

/-- Python `str.strip()`: drop leading and trailing whitespace. -/
def pyStrip (s : Str) : Str :=
  ((s.dropWhile pyIsSpace).reverse.dropWhile pyIsSpace).reverse

/-- Python `str.replace('\\', '/')` as used by `posix_path`
(src/rbackup/utils/path.py line 19). -/
def replaceBackslash (s : Str) : Str :=
  s.map fun c => if c = '\\' then '/' else c

/-- Word characters of the regex `\w` with `re.ASCII`, used by
`os.path.expandvars`' pattern. -/
def isWordChar (c : Char) : Bool := c.isAlphanum || c = '_'

/-- Dropping a prefix never lengthens a list (termination helper). -/
theorem dropWhile_len_le (p : α → Bool) (l : List α) :
    (l.dropWhile p).length ≤ l.length := by
  induction l with
  | nil => simp
  | cons a t ih =>
    by_cases h : p a
    · simp [List.dropWhile, h]; omega
    · simp [List.dropWhile, h]

/-- Python `os.path.expandvars` (posixpath version), auxiliary scanner.
The fuel argument only drives structural recursion; every step consumes at
least one input character, so with `fuel = length` the `0` case is never
reached on a non-empty input. -/
def expandAux (env : VEnv) : Nat → Str → Str
  | _, [] => []
  | 0, l => l
  | fuel + 1, '$' :: rest =>
    match rest with
    | '{' :: rest2 =>
      let name := rest2.takeWhile (· ≠ '}')
      match rest2.dropWhile (· ≠ '}') with
      | _ :: after =>
        -- a closing brace exists: the reference is `${name}`
        match env name with
        | some v => v ++ expandAux env fuel after
        | none => '$' :: '{' :: name ++ '}' :: expandAux env fuel after
      | [] =>
        -- no closing brace: this `$` matches nothing; keep scanning
        '$' :: expandAux env fuel rest
    | c :: _ =>
      if isWordChar c then
        match env (rest.takeWhile isWordChar) with
        | some v => v ++ expandAux env fuel (rest.dropWhile isWordChar)
        | none => '$' :: rest.takeWhile isWordChar ++ expandAux env fuel (rest.dropWhile isWordChar)
      else
        '$' :: expandAux env fuel rest
    | [] => ['$']
  | fuel + 1, c :: rest => c :: expandAux env fuel rest

/-- Python `os.path.expandvars`: repeatedly find the leftmost `$name` or
`${name}` reference; if the variable is set, splice in its value and
continue scanning after the value (values are not re-scanned); if unset,
leave the text and continue after it.  A `$` that introduces no reference
is kept verbatim. -/
def expandvars (env : VEnv) (l : Str) : Str := expandAux env l.length l

/-- Split a character list on `'/'`, mirroring Python `str.split('/')`
(so the result is never empty and `''.split('/') == ['']`). -/
def splitOnSlash : Str → List Str
  | [] => [[]]
  | c :: rest =>
    if c = '/' then [] :: splitOnSlash rest
    else
      match splitOnSlash rest with
      | g :: gs => (c :: g) :: gs
      | [] => [[c]]

/-- Join path components with `'/'` (Python `'/'.join`). -/
def joinSlash : List Str → Str
  | [] => []
  | c :: cs =>
    match cs with
    | [] => c
    | _ => c ++ '/' :: joinSlash cs

/-- One step of `posixpath.normpath`'s component loop: skip empty and `.`
components, append anything that is not `..`, append `..` exactly when it
cannot cancel (relative path start, or on top of another `..`), and
otherwise pop the previous component. -/
def npStep (k : Nat) (acc : List Str) (comp : Str) : List Str :=
  if comp = [] ∨ comp = S "." then acc
  else if comp ≠ S ".." ∨ (k = 0 ∧ acc = []) ∨ (acc ≠ [] ∧ acc.getLast? = some (S "..")) then
    acc ++ [comp]
  else if acc ≠ [] then acc.dropLast
  else acc

/-- Number of initial slashes kept by `posixpath.normpath`: two leading
slashes are preserved (POSIX-reserved), three or more collapse to one. -/
def initialSlashes (p : Str) : Nat :=
  if p.take 2 = S "//" ∧ p.take 3 ≠ S "///" then 2
  else if p.take 1 = S "/" then 1
  else 0

/-- Python `posixpath.normpath`. -/
def normpath (p : Str) : Str :=
  if p = [] then S "."
  else
    let k := initialSlashes p
    let acc := (splitOnSlash p).foldl (npStep k) []
    let out := List.replicate k '/' ++ joinSlash acc
    if out = [] then S "." else out

/-- The preprocessing `posix_path` applies before normalising:
`os.path.expandvars(path).strip().replace('\\', '/')`
(src/rbackup/utils/path.py line 19). -/
def ppPrep (env : VEnv) (p : Str) : Str :=
  replaceBackslash (pyStrip (expandvars env p))

/-- The trailing-separator test of `posix_path`
(src/rbackup/utils/path.py line 26): the final component `last` keeps a
trailing `/` when it ended with a separator (but is not exactly `"/"`) or
was the empty string. -/
def keepTrailingSlash (last : Str) : Prop :=
  (last ≠ S "/" ∧ last.getLast? = some '/') ∨ last.getLast? = some '\\' ∨ last = []

instance (last : Str) : Decidable (keepTrailingSlash last) := by
  unfold keepTrailingSlash; infer_instance

/-- `posix_path(path)` with a single argument
(src/rbackup/utils/path.py lines 5-28, POSIX platform). -/
def posixPath1 (env : VEnv) (p : Str) : Str :=
  let n := normpath (ppPrep env p)
  if keepTrailingSlash p then n ++ S "/" else n

/-- Python `posixpath.join` for two components: an absolute second
component replaces the first, otherwise a `/` is inserted unless already
present. -/
def osJoin (a b : Str) : Str :=
  if b.take 1 = S "/" then b
  else if a = [] ∨ a.getLast? = some '/' then a ++ b
  else a ++ '/' :: b

/-- `str(pathlib.Path(p))`/`as_posix()` on POSIX: parse the root (with the
double-slash rule), drop empty and `.` components, and re-join; the empty
path prints as `.`. -/
def pathAsPosix (p : Str) : Str :=
  let root := if p.take 2 = S "//" ∧ p.take 3 ≠ S "///" then S "//"
              else if p.take 1 = S "/" then S "/"
              else []
  let parts := (splitOnSlash p).filter fun c => decide (c ≠ [] ∧ c ≠ S ".")
  let s := root ++ joinSlash parts
  if s = [] then S "." else s

/-- `posix_path(path, *paths)` with at least one extra path
(src/rbackup/utils/path.py lines 16-18): `last` is the final extra path,
and the joined string is passed through `Path(...).as_posix()` before the
common normalisation. -/
def posixPathN (env : VEnv) (p : Str) (paths : List Str) : Str :=
  match paths.getLast? with
  | none => posixPath1 env p
  | some last =>
    let joined := pathAsPosix (paths.foldl osJoin p)
    let n := normpath (ppPrep env joined)
    if keepTrailingSlash last then n ++ S "/" else n

/-! ## Variable environment (src/rbackup/utils/env.py) -/

/-- Point update of the environment map (`os.environ.update`). -/
def envSetF (e : VEnv) (k v : Str) : VEnv :=
  fun x => if x = k then some v else e x

/-- Lookup in the `env_original` backup dict, modelled as an association
list whose values are `Option Str` (`none` models Python `None`). -/
def alookup : List (Str × Option Str) → Str → Option (Option Str)
  | [], _ => none
  | (k', v) :: t, k => if k' = k then some v else alookup t k

/-- Dict-style update of the backup: replace in place, else append. -/
def aupdate : List (Str × Option Str) → Str → Option Str → List (Str × Option Str)
  | [], k, v => [(k, v)]
  | (k', v') :: t, k, v => if k' = k then (k', v) :: t else (k', v') :: aupdate t k v

/-- The mutable global state of src/rbackup/utils/env.py: the process
environment plus the `env_original` backup dict. -/
structure EnvState where
  env : VEnv
  orig : List (Str × Option Str)

/-- `env_set(key, val)` (src/rbackup/utils/env.py lines 13-29): reject an
empty key, back up a pre-existing value on first modification, record
`None` for a freshly added key, then write the new value. -/
def env_set (s : EnvState) (key val : Str) : Except Str EnvState :=
  if key = [] then .error (S "Missing or invalid key, str type required")
  else
    let orig1 :=
      match s.env key with
      | some oldv => if alookup s.orig key = none then aupdate s.orig key (some oldv) else s.orig
      | none => aupdate s.orig key none
    .ok ⟨envSetF s.env key val, orig1⟩

/-- `env_update(other)` (src/rbackup/utils/env.py lines 31-38): `env_set`
for each pair in order. -/
def env_update (s : EnvState) (other : List (Str × Str)) : Except Str EnvState :=
  other.foldlM (fun st kv => env_set st kv.1 kv.2) s

/-- `env_restore()` with no key (src/rbackup/utils/env.py lines 79-89):
delete every environment key whose backup is `None` (a key added by
`env_set`) together with its backup entry, then write all remaining
backups into the environment and clear the backup.  `os.environ.update`
raises `TypeError` on a `None` value, which the model surfaces as an
error. -/
def env_restore_all (s : EnvState) : Except Str EnvState :=
  let env1 : VEnv := fun k =>
    if alookup s.orig k = some none ∧ (s.env k).isSome then none else s.env k
  let orig1 := s.orig.filter fun kv => decide (¬(kv.2 = none ∧ (s.env kv.1).isSome))
  if orig1.any fun kv => decide (kv.2 = none) then
    .error (S "TypeError: str expected, not NoneType")
  else
    .ok ⟨fun k => match alookup orig1 k with
                  | some (some v) => some v
                  | _ => env1 k,
         []⟩

/-- A write against the variable environment: one `env_set` call or one
`env_update` call. -/
inductive EnvWrite
  | set (key val : Str)
  | update (other : List (Str × Str))

/-- Run one write. -/
def applyEnvWrite (s : EnvState) : EnvWrite → Except Str EnvState
  | .set k v => env_set s k v
  | .update o => env_update s o

/-- Run a sequence of writes. -/
def applyEnvWrites (s : EnvState) (ws : List EnvWrite) : Except Str EnvState :=
  ws.foldlM applyEnvWrite s

/-- The environment state after performing `ws` from a fresh state over
`e0` and then calling `env_restore()` with no key; `none` if any step
raised. -/
def restoredAfter (e0 : VEnv) (ws : List EnvWrite) : Option EnvState :=
  match applyEnvWrites ⟨e0, []⟩ ws with
  | .ok s =>
    match env_restore_all s with
    | .ok t => some t
    | .error _ => none
  | .error _ => none

/-- Proof invariant relating an `EnvState` reached by `env_set`/
`env_update` writes to the starting environment `e0`: backup keys are
unique, an unbacked key is unchanged, a backup holding a value records
the original value of a key still present, and a `None` backup marks a
key that was freshly added (absent in `e0`, present now). -/
def envInv (e0 : VEnv) (s : EnvState) : Prop :=
  (s.orig.map Prod.fst).Nodup ∧
  ∀ k, (alookup s.orig k = none → s.env k = e0 k) ∧
       (∀ v, alookup s.orig k = some (some v) → e0 k = some v ∧ (s.env k).isSome) ∧
       (alookup s.orig k = some none → e0 k = none ∧ (s.env k).isSome)

/-! ## Data model (src/rbackup/classes) -/

/-- A prereq/onSuccess task as built by `Job.__init__`
(src/rbackup/classes/job.py lines 73-99).  `required = none` models a
namedtuple without a `required` field (`OnSuccessTask`); `some b` models
`PrereqTask`'s field. -/
structure TaskM where
  name : Str
  command : List Str
  required : Option Bool
  deriving DecidableEq

/-- A `PrereqTask` namedtuple (fields name, command, required). -/
def mkPrereqTask (name : Str) (command : List Str) (required : Bool) : TaskM :=
  ⟨name, command, some required⟩

/-- An `OnSuccessTask` namedtuple (fields name and command only: it has no
`required` attribute, src/rbackup/classes/job.py line 93). -/
def mkOnSuccessTask (name : Str) (command : List Str) : TaskM :=
  ⟨name, command, none⟩

/-- The job's `command` dict: `exec`, `subcommand`, `args`, `user`
(each `none` when the key is absent).  A string-valued `args` is not
modelled: the source wraps its whitespace-split into a nested list
(job.py line 115) which `posix_path` then rejects with `TypeError`; no
claim depends on it. -/
structure CommandM where
  exec : Option Str := none
  subcommand : Option Str := none
  args : Option (List Str) := none
  user : Option Str := none
  deriving DecidableEq

/-- A `Job` object after `__init__` (src/rbackup/classes/job.py lines
45-99).  `enabled` stores the truthiness of `job.get('enabled') or False`
(the object is only ever used in truth tests). -/
structure JobM where
  name : Str := []
  command : CommandM := {}
  enabled : Bool := false
  user : Str := []
  mode : Str := S "push"
  trunk : Option Str := none
  source : Str := []
  destination : Str := []
  sourceRemote : Option Str := none
  destinationRemote : Option Str := none
  includeFrom : Option Str := none
  excludeFrom : Option Str := none
  filterFrom : Option Str := none
  resyncMode : Str := S "newer"
  prereq : List TaskM := []
  onSuccess : List TaskM := []
  commandline : List Str := []
  deriving DecidableEq

/-- A `Group` object (src/rbackup/classes/group.py lines 17-27). -/
structure GroupM where
  name : Str := []
  skipOnFail : Bool := false
  jobs : List JobM := []
  deriving DecidableEq

/-- A fully merged `Config` object (src/rbackup/classes/config.py lines
30-54), restricted to the fields the core reads. -/
structure ConfigM where
  user : Str := []
  type : Str := S "local"
  remote : Str := []
  root : Str := []
  trunk : Str := []
  logFile : Option Str := none
  includeGroups : List Str := []
  excludeGroups : List Str := []
  mode : Str := S "push"
  verbose : Bool := false
  quiet : Bool := false
  interactive : Bool := false
  dryRun : Bool := false
  resync : Bool := false
  force : Bool := false
  groups : List GroupM := []
  deriving DecidableEq

/-! ## Command-line builder (`Job.prepare`, src/rbackup/classes/job.py 102-218) -/

/-- Python `x or y` for strings (first truthy value). -/
def pyOrS (a b : Str) : Str := if a = [] then b else a

/-- Truthiness of an optional string field (`None` and `''` are falsy). -/
def truthyOpt (o : Option Str) : Bool :=
  match o with
  | some s => decide (s ≠ [])
  | none => false

/-- Anchored match of `NAME(.exe)?$` at the start of `s` (the `.` is the
regex wildcard, so any character may stand before `exe`). -/
def matchSuffixExe (nm rest : Str) : Bool :=
  decide (rest = nm ∨ (rest.take nm.length = nm ∧ (rest.drop nm.length).length = 4 ∧
          (rest.drop nm.length).drop 1 = S "exe"))

/-- `re.match("^(.*[\\/])?(ALTERNATIVES)(.exe)?$", s)`: some split point
leaves a prefix that is empty or ends in a separator, followed by one of
the tool names and an optional `.exe`. -/
def matchesTool (names : List Str) (s : Str) : Bool :=
  (List.range (s.length + 1)).any fun i =>
    decide (s.take i = [] ∨ (s.take i).getLast? = some '/' ∨ (s.take i).getLast? = some '\\') &&
    names.any fun nm => matchSuffixExe nm (s.drop i)

/-- The alternatives of the `sshLike` pattern (job.py line 118). -/
def sshNames : List Str := [S "rsync", S "cwrsync", S "scp", S "sftp", S "ssh"]

/-- The alternatives of the `isRsync` pattern (job.py line 120). -/
def rsyncNames : List Str := [S "rsync", S "cwrsync"]

/-- The alternative of the `isRclone` pattern (job.py line 119). -/
def rcloneNames : List Str := [S "rclone"]

/-- `re.match("rclone(.exe)?$", exec)` as used by `Job.runJob`
(job.py line 260): anchored at position 0 with no basename prefix group. -/
def rcloneAnchored (s : Str) : Bool := matchSuffixExe (S "rclone") s

/-- `re.match("^.*@.*$", s)`: the string contains an `@`. -/
def hasAtSign (s : Str) : Bool := decide ('@' ∈ s)

/-- `self.command.get('exec', '').strip()` (job.py line 111). -/
def jobExecName (job : JobM) : Str := pyStrip (job.command.exec.getD [])

/-- `self.command.get('subcommand', '').strip()` (job.py line 112). -/
def jobSubcommand (job : JobM) : Str := pyStrip (job.command.subcommand.getD [])

/-- The verbosity flag appended for rclone/rsync (job.py line 131):
`('-vv' if config.verbose else '-v') if not config.quiet else '-q'`. -/
def verbosityFlagArg (cfg : ConfigM) : Str :=
  if ¬cfg.quiet then (if cfg.verbose then S "-vv" else S "-v") else S "-q"

/-- The initial part of the argument vector: the executable, plus the
subcommand (default `check`) for rclone (job.py lines 122-126). -/
def cmdHead (job : JobM) : List Str :=
  let command := jobExecName job
  if matchesTool rcloneNames command then
    [command, if jobSubcommand job ≠ [] then jobSubcommand job else S "check"]
  else [command]

/-- The tool-dialect flags (job.py lines 128-153): verbosity, dry-run,
log file, filter files and resync mode for rclone/rsync, or bare `-v`/`-q`
for the other ssh-like tools. -/
def toolFlags (env : VEnv) (job : JobM) (cfg : ConfigM) : List Str :=
  let command := jobExecName job
  let subcommand := jobSubcommand job
  let isRclone := matchesTool rcloneNames command
  let isRsync := matchesTool rsyncNames command
  let sshLike := matchesTool sshNames command
  if isRclone || isRsync then
    let a := [verbosityFlagArg cfg]
    let a := if cfg.dryRun then a ++ [S "--dry-run"] else a
    let a := if truthyOpt cfg.logFile then a ++ [S "--log-file", cfg.logFile.getD []] else a
    let a :=
      if truthyOpt job.filterFrom then
        (if isRclone ∧ subcommand = S "bisync" then
           a ++ [S "--filters-file", posixPath1 env (job.filterFrom.getD [])]
         else if isRclone then
           a ++ [S "--filter-from", posixPath1 env (job.filterFrom.getD [])]
         else a)
      else if truthyOpt job.excludeFrom then
        a ++ [S "--exclude-from", posixPath1 env (job.excludeFrom.getD [])]
      else if truthyOpt job.includeFrom then
        a ++ [S "--include-from", posixPath1 env (job.includeFrom.getD [])]
      else a
    if isRclone ∧ subcommand = S "bisync" ∧ cfg.resync then
      a ++ [S "--resync-mode", job.resyncMode]
    else a
  else if sshLike then
    if cfg.verbose then [S "-v"] else if cfg.quiet then [S "-q"] else []
  else []

/-- `user = self.command.get('user') or self.user or config.user`
(job.py line 156). -/
def jobUser (job : JobM) (cfg : ConfigM) : Str :=
  pyOrS (job.command.user.getD []) (pyOrS job.user cfg.user)

/-- The `(remote, remotePath)` pair (job.py lines 157-163): `remote:root`
for non-local types with a remote, with a `user@` prediction for ssh-like
tools on `host` configs whose remote has no `@`. -/
def remotePair (job : JobM) (cfg : ConfigM) : Str × Str :=
  let user := jobUser job cfg
  let root := cfg.root
  let remote := cfg.remote
  let remotePath := if remote ≠ [] ∧ cfg.type ≠ S "local" then remote ++ ':' :: root else root
  if cfg.type = S "host" ∧ matchesTool sshNames (jobExecName job) ∧ ¬hasAtSign remote then
    (user ++ '@' :: remote, user ++ '@' :: remotePath)
  else (remote, remotePath)

/-- The environment after the first `env_update` of `prepare`
(job.py lines 166-171): user, root, remote and remotePath are published
for `$var` substitution.  The backup-tracking side of `env_update` does
not affect `prepare`'s result and is modelled separately (`env_set`). -/
def prepEnv1 (job : JobM) (cfg : ConfigM) (env0 : VEnv) : VEnv :=
  let (remote, remotePath) := remotePair job cfg
  envSetF (envSetF (envSetF (envSetF env0 (S "user") (jobUser job cfg))
    (S "root") cfg.root) (S "remote") remote) (S "remotePath") remotePath

/-- `trunk = posix_path(self.trunk) if self.trunk is not None else
posix_path(config.trunk)` (job.py lines 174-175). -/
def prepTrunk (job : JobM) (cfg : ConfigM) (env1 : VEnv) : Str :=
  match job.trunk with
  | some t => posixPath1 env1 t
  | none => posixPath1 env1 cfg.trunk

/-- The environment after `prepare` has also published `trunk`
(job.py lines 177-179). -/
def prepEnvOut (job : JobM) (cfg : ConfigM) (env0 : VEnv) : VEnv :=
  let env1 := prepEnv1 job cfg env0
  envSetF env1 (S "trunk") (prepTrunk job cfg env1)

/-- The resolved source path (job.py lines 186-191): `source` wins,
otherwise a non-`None` `sourceRemote` is joined under
`remotePath/trunk`, otherwise empty. -/
def srcResolved (job : JobM) (cfg : ConfigM) (env0 : VEnv) : Str :=
  let (_, remotePath) := remotePair job cfg
  let env1 := prepEnv1 job cfg env0
  let trunk := prepTrunk job cfg env1
  let env2 := envSetF env1 (S "trunk") trunk
  if job.source ≠ [] then posixPath1 env2 job.source
  else
    match job.sourceRemote with
    | some sr => posixPathN env2 remotePath [trunk, sr]
    | none => []

/-- The resolved destination path (job.py lines 195-200), symmetric to
`srcResolved`. -/
def destResolved (job : JobM) (cfg : ConfigM) (env0 : VEnv) : Str :=
  let (_, remotePath) := remotePair job cfg
  let env1 := prepEnv1 job cfg env0
  let trunk := prepTrunk job cfg env1
  let env2 := envSetF env1 (S "trunk") trunk
  if job.destination ≠ [] then posixPath1 env2 job.destination
  else
    match job.destinationRemote with
    | some dr => posixPathN env2 remotePath [trunk, dr]
    | none => []

/-- The complete argument vector `prepare` builds when it does not raise
(job.py lines 122-216): head, flags, extra args (each variable-expanded),
then the non-empty source and destination. -/
def builtCmdline (job : JobM) (cfg : ConfigM) (env0 : VEnv) : List Str :=
  let env2 := prepEnvOut job cfg env0
  let args := cmdHead job ++ toolFlags env0 job cfg
      ++ (job.command.args.getD []).map (posixPath1 env2)
  let src := srcResolved job cfg env0
  let dest := destResolved job cfg env0
  let args := if src ≠ [] then args ++ [src] else args
  if dest ≠ [] then args ++ [dest] else args

/-- The `UnsafeError` message raised for a `.` destination (job.py lines
208-210). -/
def dotDestErrMsg : Str :=
  S "Won't use current directory (.) as destination. Use --force or set destination to environment variable (ex. $PWD)"

/-- `Job.prepare` (job.py lines 102-218): build the command line,
raising `UnsafeError` when the destination resolves to `.` and `--force`
was not given.  Returns the argument vector and the updated variable
environment. -/
def prepare (job : JobM) (cfg : ConfigM) (env0 : VEnv) :
    Except (List Str) (List Str × VEnv) :=
  if destResolved job cfg env0 = S "." ∧ ¬cfg.force then
    .error [dotDestErrMsg]
  else
    .ok (builtCmdline job cfg env0, prepEnvOut job cfg env0)

/-- Projection of `prepare` onto the command line it builds. -/
def prepCmdline (job : JobM) (cfg : ConfigM) (env0 : VEnv) : Option (List Str) :=
  match prepare job cfg env0 with
  | .ok (cl, _) => some cl
  | .error _ => none

/-! ## Job executor (`Job.execute`/`runJob`/`runTask`, job.py 221-286) -/

/-- What `Job.runJob` does with the subprocess exit code (job.py lines
252-268): `JobSuccess` (with or without the benign note), `JobError`
carrying the exit code, a plain `return True` (the rclone-9-without-flag
fall-through), or a `KeyError` from the direct dict accesses. -/
inductive MainOutcome
  | jobSuccess (note : Option Str)
  | jobError (exitcode : Int)
  | returnedTrue
  | keyError
  deriving DecidableEq

/-- `Job.runJob` as a function of the command dict and the subprocess
exit code (job.py lines 252-268). -/
def runJob (cmd : CommandM) (code : Int) : MainOutcome :=
  if code ≠ 0 then
    match cmd.exec with
    | none => .keyError
    | some e =>
      if rcloneAnchored e ∧ code = 9 then
        match cmd.args with
        | none => .keyError
        | some l =>
          if S "--error-on-no-transfer" ∈ l then
            .jobSuccess (some (S "There was nothing to transfer."))
          else .returnedTrue
      else .jobError code
  else .jobSuccess none

/-- The main command failed (a `JobError` that `execute` re-raises). -/
def isJobError : MainOutcome → Bool
  | .jobError _ => true
  | _ => false

/-- Whether `Job.runTask` reports the task as passed (job.py lines
271-286): it returns `False` only when the exit code is non-zero AND the
task object has a `required` attribute that is truthy. -/
def runTaskPass (task : TaskM) (code : Int) : Bool :=
  if code ≠ 0 then
    match task.required with
    | some r => !r
    | none => true
  else true

/-- Run one task: variable-expand its argv through `posix_path`, execute
it (`subproc` supplies the exit code), and report `runTask`'s verdict
together with the executed argv. -/
def runTaskGo (env : VEnv) (subproc : List Str → Int) (task : TaskM) : Bool × List Str :=
  let cmd := task.command.map (posixPath1 env)
  (runTaskPass task (subproc cmd), cmd)

/-- Run tasks in order, stopping after the first one whose verdict is
`False` (as `execute`'s loops do); returns the verdict and the argvs that
actually ran. -/
def runPhase (env : VEnv) (subproc : List Str → Int) : List TaskM → Bool × List (List Str)
  | [] => (true, [])
  | t :: ts =>
    let r := runTaskGo env subproc t
    if r.1 then
      let rest := runPhase env subproc ts
      (rest.1, r.2 :: rest.2)
    else (false, [r.2])

/-- How an exception from `Job.execute` is classified by `run_backups`:
an `RBackupError` subclass, or anything else (which aborts the run). -/
inductive ExcKind
  | rb (msg : Str)
  | unexpected (msg : Str)
  deriving DecidableEq

/-- `Job.execute` (job.py lines 221-249): prereq tasks in order (a failed
required one raises `JobError` before the main command), the main command
(`JobSuccess` is swallowed, `JobError` re-raised, `KeyError` escapes as a
non-RBackupError), then the onSuccess tasks.  Also returns the argvs of
every subprocess that ran. -/
def executeJob (job : JobM) (cmdline : List Str) (env : VEnv)
    (subproc : List Str → Int) : Except ExcKind Unit × List (List Str) :=
  let pre := runPhase env subproc job.prereq
  if !pre.1 then
    (.error (.rb (S "Skipping pending task(s) due to failed prerequisite.")), pre.2)
  else
    let code := subproc cmdline
    let tr2 := pre.2 ++ [cmdline]
    match runJob job.command code with
    | .jobError _ => (.error (.rb (S "Job appears to have failed")), tr2)
    | .keyError => (.error (.unexpected (S "KeyError")), tr2)
    | _ =>
      let post := runPhase env subproc job.onSuccess
      if !post.1 then
        (.error (.rb (S "Job postrun task has failed.")), tr2 ++ post.2)
      else (.ok (), tr2 ++ post.2)

/-! ## Run orchestrator (src/main.py `run_backups`, group/job filters) -/

/-- `Job.filter_jobs` (job.py lines 289-309) with the orchestrator's
`enabledOnly=False`.  Job objects always have a `mode` attribute
(`__init__` sets it), so the `not hasattr` branch of the source is
vacuous and the filter keeps a job when the mode is `any` or matches. -/
def filter_jobs (jobs : List JobM) (backupMode : Str) (enabledOnly : Bool) : List JobM :=
  jobs.filter fun j =>
    decide (backupMode = S "any" ∨ backupMode = j.mode) && (!enabledOnly || j.enabled)

/-- `Group.filter_groups` (src/rbackup/classes/group.py lines 29-50):
a truthy include-list keeps exactly the named groups (the exclude-list is
ignored); otherwise a truthy exclude-list drops the named groups;
otherwise all groups are kept. -/
def filter_groups (groups : List GroupM) (included excluded : List Str) : List GroupM :=
  if included ≠ [] then groups.filter fun g => decide (g.name ∈ included)
  else if excluded ≠ [] then groups.filter fun g => decide (g.name ∉ excluded)
  else groups

/-- The orchestrator's running state: recorded errors, the aborted flag,
the variable environment, and the argvs of all subprocesses run so far. -/
structure RunSt where
  errors : List (List Str)
  aborted : Bool
  env : VEnv
  trace : List (List Str)

/-- The body of `run_backups`' inner loop for one job (src/main.py lines
58-84).  The second component of the state is the loop's `break` flag
(skip-on-fail or abort).  A disabled job is logged and skipped: no
command line is built, nothing runs, no error is recorded. -/
def jobStep (cfg : ConfigM) (subproc : List Str → Int) (promptOk : JobM → Bool)
    (g : GroupM) (st : RunSt × Bool) (job : JobM) : RunSt × Bool :=
  let s := st.1
  if st.2 then st
  else if !job.enabled then st
  else
    match (if job.commandline ≠ [] then Except.ok (job.commandline, s.env)
           else prepare job cfg s.env) with
    | .error msgs =>
      ({ s with errors := s.errors ++ [msgs] }, g.skipOnFail)
    | .ok (cmdline, env') =>
      if !cfg.interactive || promptOk job then
        match executeJob job cmdline env' subproc with
        | (.ok _, tr) => ({ s with env := env', trace := s.trace ++ tr }, false)
        | (.error (.rb m), tr) =>
          ({ s with errors := s.errors ++ [[m]], env := env',
                    trace := s.trace ++ tr }, g.skipOnFail)
        | (.error (.unexpected m), tr) =>
          ({ s with errors := s.errors ++ [[m]], aborted := true, env := env',
                    trace := s.trace ++ tr }, true)
      else ({ s with env := env' }, false)

/-- One group of `run_backups`' outer loop (src/main.py lines 50-86):
skipped entirely once the run is aborted; a group with no mode-matching
jobs is skipped with a warning. -/
def groupStep (cfg : ConfigM) (subproc : List Str → Int) (promptOk : JobM → Bool)
    (s : RunSt) (g : GroupM) : RunSt :=
  if s.aborted then s
  else
    let jobs := filter_jobs g.jobs cfg.mode false
    if jobs = [] then s
    else (jobs.foldl (jobStep cfg subproc promptOk g) (s, false)).1

/-- `run_backups` (src/main.py lines 39-88, without the final mail step):
filter the groups, then iterate them over the fresh state. -/
def run_backups (cfg : ConfigM) (env0 : VEnv) (subproc : List Str → Int)
    (promptOk : JobM → Bool) : RunSt :=
  (filter_groups cfg.groups cfg.includeGroups cfg.excludeGroups).foldl
    (groupStep cfg subproc promptOk) ⟨[], false, env0, []⟩

/-- A JSON literal as far as truthiness is concerned. -/
inductive JsonLit
  | jnull
  | jbool (b : Bool)
  | jnum (n : Int)
  | jstr (s : Str)
  deriving DecidableEq

/-- Python truthiness of a JSON literal. -/
def pyTruthy : JsonLit → Bool
  | .jnull => false
  | .jbool b => b
  | .jnum n => decide (n ≠ 0)
  | .jstr s => decide (s ≠ [])

/-- `self.enabled = job.get('enabled') or False` (job.py line 50), as the
truth value the object's later truth tests observe: `false` when the key
is absent or its value is falsy. -/
def jobEnabledInit (v : Option JsonLit) : Bool :=
  match v with
  | some l => pyTruthy l
  | none => false

/-! ## Concrete inputs used by witnesses and counterexamples -/

/-- An empty variable environment. -/
def noEnv : VEnv := fun _ => none

/-- An environment with only HOME set. -/
def homeEnv : VEnv := fun k => if k = S "HOME" then some (S "/home/u") else none

/-- A write sequence: one `env_set` then one `env_update` touching both a
fresh key and a pre-existing one. -/
def sampleWrites : List EnvWrite :=
  [.set (S "user") (S "bob"), .update [(S "HOME", S "/tmp"), (S "user", S "carol")]]

/-- An enabled rclone job with no extra args, sources or filters. -/
def rcloneJob : JobM :=
  { command := { exec := some (S "rclone"), args := some [] }, enabled := true }

/-- An rclone job whose args contain `--error-on-no-transfer`. -/
def rcloneFlagCmd : CommandM :=
  { exec := some (S "rclone"), args := some [S "--error-on-no-transfer"] }

/-- An enabled rsync job whose destination is the literal `.`. -/
def dotDestJob : JobM :=
  { command := { exec := some (S "rsync"), args := some [] }, enabled := true,
    destination := S "." }

/-- A config with both verbose and quiet set. -/
def bothVQCfg : ConfigM := { verbose := true, quiet := true }

/-- A config with force set. -/
def forceCfg : ConfigM := { force := true }

/-- An rsync job with one onSuccess task and nothing else. -/
def postTaskJob : JobM :=
  { command := { exec := some (S "rsync"), args := some [] }, enabled := true,
    onSuccess := [mkOnSuccessTask (S "cleanup") [S "somecmd"]] }

/-- Exit codes under which the main command (argv `[rsync]`) succeeds and
every other subprocess (in particular the onSuccess task) exits 1. -/
def postFailSubproc : List Str → Int :=
  fun c => if c = [S "rsync"] then 0 else 1

/-- Two groups used to exercise the group filter. -/
def groupA : GroupM := { name := S "alpha" }

/-- Second sample group. -/
def groupB : GroupM := { name := S "beta" }

/-- A disabled job with a prereq, a main command and an onSuccess task,
used to check that the orchestrator skips it entirely. -/
def disabledJob : JobM :=
  { command := { exec := some (S "rsync"), args := some [] }, enabled := false,
    prereq := [mkPrereqTask (S "p") [S "pre"] true],
    onSuccess := [mkOnSuccessTask (S "o") [S "post"]] }

/-- A fresh orchestrator state over the empty environment. -/
def freshSt : RunSt := ⟨[], false, noEnv, []⟩

/-! ## Invariants of `normpath`'s accumulator (proof machinery) -/

/-- A component `normpath` can output: nonempty, not `.`, slash-free. -/
def goodComp (c : Str) : Prop := c ≠ [] ∧ c ≠ S "." ∧ '/' ∉ c

/-- Every component is `..`. -/
def ddOnly (l : List Str) : Prop := ∀ c ∈ l, c = S ".."

/-- Invariant of `normpath`'s component accumulator: good components, and
the `..` components form a prefix, which is empty for absolute paths. -/
def isNormed (k : Nat) (cs : List Str) : Prop :=
  (∀ c ∈ cs, goodComp c) ∧
  ∃ a b, cs = a ++ b ∧ ddOnly a ∧ S ".." ∉ b ∧ (k ≠ 0 → a = [])

/-! ## Claim C5: the path resolver on empty input -/

/-- Claim C5, counterexample.  The claim states that the Path Resolver
maps the empty string to the empty string, never `.` and never `./`; in
fact `posix_path('')` returns `./` (normpath maps `''` to `.`, and the
`last == ''` branch then appends a slash). -/
theorem c5_counterexample :
    posixPath1 noEnv [] = S "./" ∧ posixPath1 noEnv [] ≠ [] ∧ posixPath1 noEnv [] ≠ S "." := by
  decide

/-- Claim C5, amended: for every variable environment, the resolver maps
the empty string to `./` (in particular never to the empty string and
never to the bare `.`). -/
theorem c5_amended (env : VEnv) :
    posixPath1 env [] = S "./" ∧ posixPath1 env [] ≠ [] ∧ posixPath1 env [] ≠ S "." := by
  have h : posixPath1 env [] = S "./" := by
    simp [posixPath1, ppPrep, expandvars, expandAux, pyStrip, replaceBackslash, normpath,
      keepTrailingSlash, S]
  refine ⟨h, ?_, ?_⟩ <;> simp [h, S]

/-! ## Claim C1: exit-code handling of the main command -/

/-- Claim C1, counterexample.  The claim requires a Failure outcome when
rclone exits 9 and `--error-on-no-transfer` IS in the args; the code
instead raises the explicit benign `JobSuccess` in exactly that case. -/
theorem c1_counterexample :
    runJob rcloneFlagCmd 9 = .jobSuccess (some (S "There was nothing to transfer.")) ∧
    isJobError (runJob rcloneFlagCmd 9) = false ∧
    (S "--error-on-no-transfer") ∈ (rcloneFlagCmd.args.getD []) := by
  decide

/-- Claim C1, amended: for a non-zero exit code (and an `args` list
present on the command), the outcome is a non-failure exactly when the
tool matches `rclone(.exe)?` and the exit code is 9 — regardless of
`--error-on-no-transfer`, which only selects the explicit
"nothing to transfer" success over the silent fall-through; every other
non-zero code (in particular 9 from rsync) yields the `JobError` failure
carrying that exit code. -/
theorem c1_amended (e : Str) (sub usr : Option Str) (args : List Str) (code : Int)
    (h : code ≠ 0) :
    (isJobError (runJob ⟨some e, sub, some args, usr⟩ code) = false ↔
      (rcloneAnchored e = true ∧ code = 9)) ∧
    (¬(rcloneAnchored e = true ∧ code = 9) →
      runJob ⟨some e, sub, some args, usr⟩ code = .jobError code) := by
  by_cases hrc : rcloneAnchored e = true ∧ code = 9
  · constructor
    · simp only [runJob, if_pos h, hrc]
      by_cases hm : S "--error-on-no-transfer" ∈ args <;>
        simp [hm, isJobError, hrc]
    · intro hc; exact absurd hrc hc
  · constructor
    · simp only [runJob, if_pos h]
      have : ¬(rcloneAnchored e ∧ code = 9) := by simpa using hrc
      simp [this, isJobError, hrc]
    · intro _
      simp only [runJob, if_pos h]
      have : ¬(rcloneAnchored e ∧ code = 9) := by simpa using hrc
      simp [this]

/-- Claim C1, witness: rsync exiting 9 is a failure, and rclone exiting 9
is a non-failure. -/
theorem c1_witness :
    ((isJobError (runJob ⟨some (S "rsync"), none, some [], none⟩ 9) = false ↔
       (rcloneAnchored (S "rsync") = true ∧ (9 : Int) = 9)) ∧
     (¬(rcloneAnchored (S "rsync") = true ∧ (9 : Int) = 9) →
       runJob ⟨some (S "rsync"), none, some [], none⟩ 9 = .jobError 9)) ∧
    (isJobError (runJob ⟨some (S "rclone"), none, some [], none⟩ 9) = false ↔
      (rcloneAnchored (S "rclone") = true ∧ (9 : Int) = 9)) := by
  exact ⟨c1_amended (S "rsync") none none [] 9 (by decide),
         (c1_amended (S "rclone") none none [] 9 (by decide)).1⟩

/-! ## Claim C2: failing onSuccess tasks -/

/-- Claim C2, code behaviour at the failing input.  The `OnSuccessTask`
namedtuple has no `required` field, so `runTask` reports the task as
passed even though its subprocess exits 1, the dead
`raise JobError("Job postrun task has failed.")` in `execute` never
fires, and the job completes successfully. -/
theorem c2_code_bug_eval :
    runTaskPass (mkOnSuccessTask (S "cleanup") [S "somecmd"]) 1 = true ∧
    (mkOnSuccessTask (S "cleanup") [S "somecmd"]).required = none ∧
    postFailSubproc ((mkOnSuccessTask (S "cleanup") [S "somecmd"]).command.map
      (posixPath1 noEnv)) = 1 ∧
    (executeJob postTaskJob [S "rsync"] noEnv postFailSubproc).1 = .ok () := by
  refine ⟨rfl, rfl, by decide, ?_⟩
  rfl

/-! ## Claim C3: the `.`-destination safety check -/

/-- Claim C3, confirmed: whenever the resolved destination is exactly
`.`, `prepare` raises the `UnsafeError` unless `force` is set (in which
case it builds the command line normally), and in the orchestrator the
failed preparation only records the error — no subprocess trace is added
for the job. -/
theorem c3_confirmed (job : JobM) (cfg : ConfigM) (env0 : VEnv)
    (h : destResolved job cfg env0 = S ".") :
    (cfg.force = false → prepare job cfg env0 = .error [dotDestErrMsg]) ∧
    (cfg.force = true →
      prepare job cfg env0 = .ok (builtCmdline job cfg env0, prepEnvOut job cfg env0)) ∧
    (∀ (g : GroupM) (subproc : List Str → Int) (promptOk : JobM → Bool) (s : RunSt),
      s.env = env0 → cfg.force = false → job.commandline = [] → job.enabled = true →
      (jobStep cfg subproc promptOk g (s, false) job).1.trace = s.trace ∧
      (jobStep cfg subproc promptOk g (s, false) job).1.errors = s.errors ++ [[dotDestErrMsg]]) := by
  refine ⟨?_, ?_, ?_⟩
  · intro hf; simp [prepare, h, hf]
  · intro hf; simp [prepare, hf]
  · intro g subproc promptOk s hse hf hcl hen
    have hp : prepare job cfg s.env = .error [dotDestErrMsg] := by
      rw [hse]; simp [prepare, h, hf]
    simp [jobStep, hen, hcl, hp]

/-- Claim C3, witness: a job with destination `.` errors without force
and succeeds with force. -/
theorem c3_witness :
    prepare dotDestJob {} noEnv = .error [dotDestErrMsg] ∧
    prepare dotDestJob forceCfg noEnv =
      .ok (builtCmdline dotDestJob forceCfg noEnv, prepEnvOut dotDestJob forceCfg noEnv) := by
  exact ⟨(c3_confirmed dotDestJob {} noEnv (by decide)).1 rfl,
         (c3_confirmed dotDestJob forceCfg noEnv (by decide)).2.1 rfl⟩

/-! ## Claim C4: the verbosity flag -/

/-- Claim C4, counterexample.  The claim states that with both verbose
and quiet set the appended flag is `-vv`; the code appends `-q` (quiet
takes precedence, job.py line 131). -/
theorem c4_counterexample :
    prepCmdline rcloneJob bothVQCfg noEnv = some [S "rclone", S "check", S "-q"] ∧
    bothVQCfg.verbose = true ∧ bothVQCfg.quiet = true ∧
    S "-vv" ∉ [S "rclone", S "check", S "-q"] := by
  decide

/-- Claim C4, amended: for every rclone or rsync job the builder appends
exactly one verbosity flag, as the first tool flag: `-q` if quiet is set
(quiet takes precedence even when verbose is also set), else `-vv` if
verbose, else `-v`. -/
theorem c4_amended (env0 : VEnv) (job : JobM) (cfg : ConfigM)
    (h : matchesTool rcloneNames (jobExecName job) = true ∨
         matchesTool rsyncNames (jobExecName job) = true) :
    (toolFlags env0 job cfg).head? = some (verbosityFlagArg cfg) ∧
    verbosityFlagArg cfg =
      (if cfg.quiet then S "-q" else if cfg.verbose then S "-vv" else S "-v") := by
  constructor
  · have hcond : (matchesTool rcloneNames (jobExecName job) ||
        matchesTool rsyncNames (jobExecName job)) = true := by
      rcases h with h | h <;> simp [h]
    simp only [toolFlags, hcond, if_true]
    repeat' split
    all_goals simp [List.head?_append, List.append_assoc]
  · by_cases hq : cfg.quiet <;> simp [verbosityFlagArg, hq]

/-- Claim C4, witness: with verbose and quiet both set on an rclone job,
the single appended flag is `-q`. -/
theorem c4_witness :
    ((toolFlags noEnv rcloneJob bothVQCfg).head? = some (verbosityFlagArg bothVQCfg) ∧
     verbosityFlagArg bothVQCfg =
       (if bothVQCfg.quiet then S "-q" else if bothVQCfg.verbose then S "-vv" else S "-v")) ∧
    verbosityFlagArg bothVQCfg = S "-q" := by
  exact ⟨c4_amended noEnv rcloneJob bothVQCfg (by decide), by decide⟩

/-! ## Claim C9: group filtering -/

/-- Claim C9, confirmed: a non-empty include list keeps exactly the named
groups whatever the exclude list is; otherwise a non-empty exclude list
drops exactly the named groups; with neither, all groups are kept; and
the result is always a sublist (original order preserved). -/
theorem c9_confirmed (groups : List GroupM) (inc exc : List Str) :
    (inc ≠ [] → filter_groups groups inc exc =
      groups.filter fun g => decide (g.name ∈ inc)) ∧
    (inc = [] → exc ≠ [] → filter_groups groups inc exc =
      groups.filter fun g => decide (g.name ∉ exc)) ∧
    (inc = [] → exc = [] → filter_groups groups inc exc = groups) ∧
    (filter_groups groups inc exc).Sublist groups := by
  unfold filter_groups
  by_cases hi : inc = [] <;> by_cases he : exc = [] <;>
    simp [hi, he, List.filter_sublist]

/-- Claim C9, witness: with the same name included and excluded at once,
the include list wins and the group is kept. -/
theorem c9_witness :
    filter_groups [groupA, groupB] [S "alpha"] [S "alpha"] =
      List.filter (fun g => decide (g.name ∈ [S "alpha"])) [groupA, groupB] ∧
    filter_groups [groupA, groupB] [S "alpha"] [S "alpha"] = [groupA] := by
  exact ⟨(c9_confirmed [groupA, groupB] [S "alpha"] [S "alpha"]).1 (by decide), by decide⟩

/-! ## Claim C10: disabled jobs -/

/-- Claim C10, confirmed: `enabled` defaults to false (absent key) and is
false for every falsy value; a job can only be enabled by a truthy value;
and the orchestrator's loop body leaves the state untouched for a
disabled job — no command line is built, no subprocess argv is traced, no
error is recorded. -/
theorem c10_confirmed :
    jobEnabledInit none = false ∧
    (∀ l, pyTruthy l = false → jobEnabledInit (some l) = false) ∧
    (∀ l, jobEnabledInit (some l) = true → pyTruthy l = true) ∧
    (∀ (cfg : ConfigM) (subproc : List Str → Int) (promptOk : JobM → Bool)
       (g : GroupM) (st : RunSt × Bool) (j : JobM), j.enabled = false →
       jobStep cfg subproc promptOk g st j = st) := by
  refine ⟨rfl, fun l h => h, fun l h => h, ?_⟩
  intro cfg subproc promptOk g st j hj
  unfold jobStep
  simp [hj]

/-- Claim C10, witness: a concrete disabled job leaves a fresh state
unchanged. -/
theorem c10_witness :
    jobStep {} postFailSubproc (fun _ => true) groupA (freshSt, false) disabledJob =
      (freshSt, false) :=
  c10_confirmed.2.2.2 {} postFailSubproc (fun _ => true) groupA (freshSt, false)
    disabledJob rfl

/-! ## Claims C7 and C8: counterexamples -/

/-- Claim C7, counterexample.  `/a/..` does not end with a separator, yet
the resolver's output `/` ends with one (normalisation collapsed the path
to the root). -/
theorem c7_counterexample :
    posixPath1 noEnv (S "/a/..") = S "/" ∧
    (posixPath1 noEnv (S "/a/..")).getLast? = some '/' ∧
    (S "/a/..").getLast? ≠ some '/' ∧ (S "/a/..").getLast? ≠ some '\\' := by
  decide

/-- Claim C8, counterexample.  The resolver is not idempotent: `//` maps
to `///` (the preserved double slash plus the trailing-separator append),
which maps back to `//`. -/
theorem c8_counterexample :
    posixPath1 noEnv (S "//") = S "///" ∧
    posixPath1 noEnv (posixPath1 noEnv (S "//")) = S "//" ∧
    posixPath1 noEnv (posixPath1 noEnv (S "//")) ≠ posixPath1 noEnv (S "//") := by
  decide

/-! ## Structural lemmas about `splitOnSlash`, `joinSlash` and `normpath` -/

/-- `splitOnSlash` never returns the empty list. -/
theorem splitOnSlash_ne_nil (p : Str) : splitOnSlash p ≠ [] := by
  cases p with
  | nil => simp [splitOnSlash]
  | cons c rest =>
    simp only [splitOnSlash]
    split
    · simp
    · split <;> simp

/-- Splitting on `/` yields slash-free components. -/
theorem mem_splitOnSlash_no_slash (p : Str) :
    ∀ c ∈ splitOnSlash p, '/' ∉ c := by
  induction p with
  | nil => simp [splitOnSlash]
  | cons ch rest ih =>
    simp only [splitOnSlash]
    split
    · intro c hc
      rcases List.mem_cons.1 hc with h | h
      · simp [h]
      · exact ih c h
    · rename_i hne
      cases hsp : splitOnSlash rest with
      | nil => exact absurd hsp (splitOnSlash_ne_nil rest)
      | cons g gs =>
        dsimp only
        intro c hc
        rcases List.mem_cons.1 hc with h | h
        · subst h
          intro hmem
          rcases List.mem_cons.1 hmem with h | h
          · exact hne h.symm
          · exact ih g (hsp ▸ List.mem_cons_self g gs) h
        · exact ih c (hsp ▸ List.mem_cons.2 (Or.inr h))

/-- Every character of a `splitOnSlash` component comes from the input. -/
theorem mem_splitOnSlash_chars (p : Str) :
    ∀ c ∈ splitOnSlash p, ∀ ch ∈ c, ch ∈ p := by
  induction p with
  | nil => simp [splitOnSlash]
  | cons x rest ih =>
    simp only [splitOnSlash]
    split
    · intro c hc ch hch
      rcases List.mem_cons.1 hc with h | h
      · simp [h] at hch
      · exact List.mem_cons.2 (Or.inr (ih c h ch hch))
    · cases hsp : splitOnSlash rest with
      | nil => exact absurd hsp (splitOnSlash_ne_nil rest)
      | cons g gs =>
        dsimp only
        intro c hc ch hch
        rcases List.mem_cons.1 hc with h | h
        · subst h
          rcases List.mem_cons.1 hch with h | h
          · simp [h]
          · exact List.mem_cons.2
              (Or.inr (ih g (hsp ▸ List.mem_cons_self g gs) ch h))
        · exact List.mem_cons.2
            (Or.inr (ih c (hsp ▸ List.mem_cons.2 (Or.inr h)) ch hch))

/-- Splitting a slash-free string yields the single-component list. -/
theorem splitOnSlash_of_no_slash (c : Str) (h : '/' ∉ c) :
    splitOnSlash c = [c] := by
  induction c with
  | nil => simp [splitOnSlash]
  | cons x rest ih =>
    have hx : x ≠ '/' := fun hh => h (by simp [hh])
    have hr : '/' ∉ rest := fun hh => h (List.mem_cons.2 (Or.inr hh))
    simp only [splitOnSlash, if_neg hx, ih hr]

/-- Splitting commutes with prepending a slash-free component and a
separator. -/
theorem splitOnSlash_flat (c t : Str) (h : '/' ∉ c) :
    splitOnSlash (c ++ '/' :: t) = c :: splitOnSlash t := by
  induction c with
  | nil => simp [splitOnSlash]
  | cons x rest ih =>
    have hx : x ≠ '/' := fun hh => h (by simp [hh])
    have hr : '/' ∉ rest := fun hh => h (List.mem_cons.2 (Or.inr hh))
    have hh := ih hr
    simp only [List.cons_append, splitOnSlash, if_neg hx, List.append_eq, hh]

/-- Splitting after appending a trailing slash adds one empty component. -/
theorem splitOnSlash_append_slash (p : Str) :
    splitOnSlash (p ++ S "/") = splitOnSlash p ++ [[]] := by
  induction p with
  | nil => simp [splitOnSlash, S]
  | cons c rest ih =>
    by_cases hc : c = '/'
    · simp only [List.cons_append, splitOnSlash, if_pos hc, List.append_eq, ih,
        List.cons_append]
    · cases hsp : splitOnSlash rest with
      | nil => exact absurd hsp (splitOnSlash_ne_nil rest)
      | cons g gs =>
        rw [hsp] at ih
        simp only [List.cons_append, splitOnSlash, if_neg hc, List.append_eq, ih, hsp]

/-- Splitting after a block of leading slashes. -/
theorem splitOnSlash_replicate (k : Nat) (x : Str) :
    splitOnSlash (List.replicate k '/' ++ x) =
      List.replicate k [] ++ splitOnSlash x := by
  induction k with
  | zero => simp
  | succ n ih => simp [List.replicate_succ, splitOnSlash, ih]

/-- `splitOnSlash` undoes `joinSlash` on slash-free components. -/
theorem splitOnSlash_joinSlash (cs : List Str) (hne : cs ≠ [])
    (h : ∀ c ∈ cs, '/' ∉ c) : splitOnSlash (joinSlash cs) = cs := by
  induction cs with
  | nil => exact absurd rfl hne
  | cons c cs ih =>
    cases cs with
    | nil =>
      simp only [joinSlash]
      exact splitOnSlash_of_no_slash c (h c (List.mem_cons_self c []))
    | cons d ds =>
      have hjoin : joinSlash (c :: d :: ds) = c ++ '/' :: joinSlash (d :: ds) := rfl
      rw [hjoin, splitOnSlash_flat c _ (h c (List.mem_cons_self c _)),
        ih (by simp) (fun x hx => h x (List.mem_cons.2 (Or.inr hx)))]

/-- `joinSlash` of nonempty components is nonempty. -/
theorem joinSlash_ne_nil (cs : List Str) (hne : cs ≠ [])
    (h : ∀ c ∈ cs, c ≠ []) : joinSlash cs ≠ [] := by
  cases cs with
  | nil => exact absurd rfl hne
  | cons c cs =>
    cases cs with
    | nil => exact h c (List.mem_cons_self c [])
    | cons d ds =>
      have hjoin : joinSlash (c :: d :: ds) = c ++ '/' :: joinSlash (d :: ds) := rfl
      rw [hjoin]
      simp

/-- Characters of a `joinSlash` are characters of a component or `/`. -/
theorem mem_joinSlash_chars (cs : List Str) :
    ∀ ch ∈ joinSlash cs, (∃ c ∈ cs, ch ∈ c) ∨ ch = '/' := by
  induction cs with
  | nil => simp [joinSlash]
  | cons c cs ih =>
    cases cs with
    | nil =>
      intro ch hch
      exact Or.inl ⟨c, List.mem_cons_self c [], hch⟩
    | cons d ds =>
      have hjoin : joinSlash (c :: d :: ds) = c ++ '/' :: joinSlash (d :: ds) := rfl
      rw [hjoin]
      intro ch hch
      rcases List.mem_append.1 hch with h | h
      · exact Or.inl ⟨c, List.mem_cons_self c _, h⟩
      · rcases List.mem_cons.1 h with h | h
        · exact Or.inr h
        · rcases ih ch h with ⟨x, hx, hchx⟩ | h
          · exact Or.inl ⟨x, List.mem_cons.2 (Or.inr hx), hchx⟩
          · exact Or.inr h

/-- If an element of a concatenation is absent from the right part, the
left part extends past it. -/
theorem eq_append_extract (c : Str) :
    ∀ (pre rest a b : List Str), pre ++ c :: rest = a ++ b → c ∉ b →
      ∃ a2, a = pre ++ c :: a2 := by
  intro pre
  induction pre with
  | nil =>
    intro rest a b h hc
    cases a with
    | nil =>
      simp only [List.nil_append] at h
      exact absurd (h ▸ List.mem_cons_self c rest) hc
    | cons x a' =>
      simp only [List.nil_append, List.cons_append] at h
      obtain ⟨h1, _⟩ := List.cons.inj h
      exact ⟨a', by rw [h1]; rfl⟩
  | cons p pre' ih =>
    intro rest a b h hc
    cases a with
    | nil =>
      have : c ∈ b := by
        rw [← List.nil_append b, ← h]
        exact List.mem_cons.2 (Or.inr (List.mem_append.2 (Or.inr (List.mem_cons_self c rest))))
      exact absurd this hc
    | cons x a' =>
      simp only [List.cons_append] at h
      obtain ⟨h1, h2⟩ := List.cons.inj h
      obtain ⟨a2, ha⟩ := ih rest a' b h2 hc
      exact ⟨a2, by rw [h1, ha]; rfl⟩

/-- A nonempty all-`..` list ends with `..`. -/
theorem ddOnly_getLast? (l : List Str) (h : ddOnly l) (hne : l ≠ []) :
    l.getLast? = some (S "..") := by
  rw [List.getLast?_eq_getLast_of_ne_nil hne]
  exact congrArg some (h _ (List.getLast_mem hne))

/-- A value delivered by `getLast?` is a member. -/
theorem mem_of_getLast?_eq {α : Type} (l : List α) (x : α) (h : l.getLast? = some x) :
    x ∈ l := by
  obtain ⟨hne, hx⟩ := List.mem_getLast?_eq_getLast (l := l) (x := x) h
  exact hx ▸ List.getLast_mem hne

/-- `npStep` preserves the accumulator invariant. -/
theorem npStep_isNormed (k : Nat) (acc : List Str) (comp : Str)
    (hn : isNormed k acc) (hs : '/' ∉ comp) : isNormed k (npStep k acc comp) := by
  obtain ⟨hgood, a, b, hab, hdda, hddb, hka⟩ := hn
  unfold npStep
  split
  · exact ⟨hgood, a, b, hab, hdda, hddb, hka⟩
  split
  · rename_i hskip happ
    rw [not_or] at hskip
    refine ⟨?_, ?_⟩
    · intro c hc
      rcases List.mem_append.1 hc with h | h
      · exact hgood c h
      · have : c = comp := by simpa using h
        exact this ▸ ⟨hskip.1, hskip.2, hs⟩
    · by_cases hdd : comp = S ".."
      · subst hdd
        rcases happ with h | ⟨hk0, hacc⟩ | ⟨hne, hlast⟩
        · exact absurd rfl h
        · subst hacc
          refine ⟨[S ".."], [], by simp, ?_, by simp, ?_⟩
          · intro c hc; simpa using hc
          · intro hk; exact absurd hk0 hk
        · have hb : b = [] := by
            by_contra hbne
            have h1 : acc.getLast? = b.getLast? := by
              rw [hab]; exact List.getLast?_append_of_ne_nil a hbne
            have h2 : b.getLast? = some (S "..") := by rw [← h1, hlast]
            exact hddb (mem_of_getLast?_eq b _ h2)
          subst hb
          rw [List.append_nil] at hab
          refine ⟨a ++ [S ".."], [], by rw [hab]; simp, ?_, by simp, ?_⟩
          · intro c hc
            rcases List.mem_append.1 hc with h | h
            · exact hdda c h
            · simpa using h
          · intro hk
            have : acc = [] := by rw [hab, hka hk]
            rw [this] at hlast
            simp at hlast
      · refine ⟨a, b ++ [comp], by rw [hab]; simp, hdda, ?_, hka⟩
        intro hmem
        rcases List.mem_append.1 hmem with h | h
        · exact hddb h
        · exact hdd ((by simpa using h : S ".." = comp).symm)
  split
  · rename_i hskip hpop hne
    refine ⟨?_, ?_⟩
    · intro c hc
      exact hgood c ((List.dropLast_sublist acc).subset hc)
    · by_cases hb : b = []
      · subst hb
        rw [List.append_nil] at hab
        refine ⟨a.dropLast, [], by rw [hab]; simp, ?_, by simp, ?_⟩
        · intro c hc
          exact hdda c ((List.dropLast_sublist a).subset hc)
        · intro hk; rw [hka hk]; rfl
      · have hdl : (a ++ b).dropLast = a ++ b.dropLast := by
          cases b with
          | nil => exact absurd rfl hb
          | cons x bs => exact List.dropLast_append_cons
        refine ⟨a, b.dropLast, by rw [hab, hdl], hdda, ?_, hka⟩
        intro hmem
        exact hddb ((List.dropLast_sublist b).subset hmem)
  · exact ⟨hgood, a, b, hab, hdda, hddb, hka⟩

/-- The fold of `npStep` preserves the invariant. -/
theorem foldl_npStep_isNormed (k : Nat) (comps : List Str) :
    ∀ acc, (∀ c ∈ comps, '/' ∉ c) → isNormed k acc →
      isNormed k (comps.foldl (npStep k) acc) := by
  induction comps with
  | nil => intro acc _ hn; exact hn
  | cons c rest ih =>
    intro acc hcomps hn
    rw [List.foldl_cons]
    exact ih _ (fun x hx => hcomps x (List.mem_cons.2 (Or.inr hx)))
      (npStep_isNormed k acc c hn (hcomps c (List.mem_cons_self c rest)))

/-- The empty accumulator satisfies the invariant. -/
theorem isNormed_nil (k : Nat) : isNormed k [] :=
  ⟨by simp, [], [], rfl, by intro c hc; simp at hc, by simp, fun _ => rfl⟩

/-- Feeding a normalised list back through the fold reproduces it. -/
theorem foldl_npStep_refold (k : Nat) :
    ∀ (suf pre : List Str), isNormed k (pre ++ suf) →
      List.foldl (npStep k) pre suf = pre ++ suf := by
  intro suf
  induction suf with
  | nil => intro pre _; simp
  | cons c rest ih =>
    intro pre hn
    obtain ⟨hgood, a, b, hab, hdda, hddb, hka⟩ := hn
    have hcg : goodComp c :=
      hgood c (List.mem_append.2 (Or.inr (List.mem_cons_self c rest)))
    have hstep : npStep k pre c = pre ++ [c] := by
      unfold npStep
      rw [if_neg (by push_neg; exact ⟨hcg.1, hcg.2.1⟩)]
      rw [if_pos]
      by_cases hdd : c = S ".."
      · subst hdd
        obtain ⟨a2, ha2⟩ := eq_append_extract (S "..") pre rest a b hab hddb
        by_cases hpre : pre = []
        · subst hpre
          have hk0 : k = 0 := by
            by_contra hk
            rw [hka hk] at ha2
            simp at ha2
          exact Or.inr (Or.inl ⟨hk0, rfl⟩)
        · have hpredd : ddOnly pre := by
            intro x hx
            exact hdda x (ha2 ▸ List.mem_append.2 (Or.inl hx))
          exact Or.inr (Or.inr ⟨hpre, ddOnly_getLast? pre hpredd hpre⟩)
      · exact Or.inl hdd
    rw [List.foldl_cons, hstep]
    have hre : (pre ++ [c]) ++ rest = pre ++ c :: rest := by simp
    rw [ih (pre ++ [c]) (by rw [hre]; exact ⟨hgood, a, b, hab, hdda, hddb, hka⟩), hre]

/-- `npStep` ignores empty components. -/
theorem npStep_nil_comp (k : Nat) (acc : List Str) : npStep k acc [] = acc := by
  unfold npStep
  rw [if_pos (Or.inl rfl)]

/-- The fold ignores a block of empty components. -/
theorem foldl_npStep_replicate (k n : Nat) (acc : List Str) :
    List.foldl (npStep k) acc (List.replicate n []) = acc := by
  induction n with
  | zero => rfl
  | succ m ih => rw [List.replicate_succ, List.foldl_cons, npStep_nil_comp, ih]

/-- Explicit character lists for short string literals. -/
theorem S_slash : S "/" = ['/'] := rfl

/-- Two slashes. -/
theorem S_slash2 : S "//" = ['/', '/'] := rfl

/-- Three slashes. -/
theorem S_slash3 : S "///" = ['/', '/', '/'] := rfl

/-- Dot. -/
theorem S_dot : S "." = ['.'] := rfl

/-- Dot-slash. -/
theorem S_dotslash : S "./" = ['.', '/'] := rfl

/-- Taking from an append stays in the left part when it is long enough. -/
theorem take_append_of_le {α : Type} (n : Nat) (l m : List α) (h : n ≤ l.length) :
    (l ++ m).take n = l.take n := by
  rw [List.take_append_eq_append_take, Nat.sub_eq_zero_of_le h]
  simp

/-- A `joinSlash` of nonempty slash-free components never ends in `/`. -/
theorem joinSlash_getLast?_ne_slash (cs : List Str) :
    cs ≠ [] → (∀ c ∈ cs, c ≠ [] ∧ '/' ∉ c) →
      (joinSlash cs).getLast? ≠ some '/' := by
  induction cs with
  | nil => intro h; exact absurd rfl h
  | cons c cs ih =>
    intro _ h
    cases cs with
    | nil =>
      intro hlast
      exact (h c (List.mem_cons_self c [])).2 (mem_of_getLast?_eq c '/' hlast)
    | cons d ds =>
      have hjoin : joinSlash (c :: d :: ds) = c ++ '/' :: joinSlash (d :: ds) := rfl
      have hJne : joinSlash (d :: ds) ≠ [] :=
        joinSlash_ne_nil (d :: ds) (by simp)
          (fun x hx => (h x (List.mem_cons.2 (Or.inr hx))).1)
      rw [hjoin, List.getLast?_append_cons,
        show ('/' :: joinSlash (d :: ds)) = ['/'] ++ joinSlash (d :: ds) from rfl,
        List.getLast?_append_of_ne_nil _ hJne]
      exact ih (by simp) (fun x hx => h x (List.mem_cons.2 (Or.inr hx)))

/-- A `joinSlash` of a cons starts with its first component. -/
theorem joinSlash_head_cons (c : Str) (cs : List Str) :
    ∃ t, joinSlash (c :: cs) = c ++ t := by
  cases cs with
  | nil => exact ⟨[], by simp [joinSlash]⟩
  | cons d ds => exact ⟨'/' :: joinSlash (d :: ds), rfl⟩

/-- `initialSlashes` is at most two. -/
theorem initialSlashes_le (p : Str) : initialSlashes p ≤ 2 := by
  unfold initialSlashes
  repeat' split
  all_goals omega

/-- A block of `k ≤ 2` slashes followed by a non-slash has exactly `k`
initial slashes. -/
theorem initialSlashes_rep (k : Nat) (hk : k ≤ 2) (x : Char) (hx : x ≠ '/')
    (rest : Str) :
    initialSlashes (List.replicate k '/' ++ x :: rest) = k := by
  interval_cases k
  · simp only [List.replicate_zero, List.nil_append]
    have h2 : ¬((x :: rest).take 2 = S "//" ∧ (x :: rest).take 3 ≠ S "///") := by
      rintro ⟨hand, -⟩
      rw [S_slash2] at hand
      cases rest with
      | nil => simp [List.take] at hand
      | cons r rs =>
        simp [List.take] at hand
        exact hx hand.1
    have h1 : ¬((x :: rest).take 1 = S "/") := by
      intro hh
      rw [S_slash] at hh
      simp [List.take] at hh
      exact hx hh
    unfold initialSlashes
    rw [if_neg h2, if_neg h1]
  · simp only [List.replicate_succ, List.replicate_zero, List.nil_append,
      List.cons_append]
    have h2 : ¬(('/' :: x :: rest).take 2 = S "//" ∧
        ('/' :: x :: rest).take 3 ≠ S "///") := by
      rintro ⟨hand, -⟩
      rw [S_slash2] at hand
      simp [List.take] at hand
      exact hx hand
    have h1 : ('/' :: x :: rest).take 1 = S "/" := by
      rw [S_slash]
      simp [List.take]
    unfold initialSlashes
    rw [if_neg h2, if_pos h1]
  · simp only [List.replicate_succ, List.replicate_zero, List.nil_append,
      List.cons_append]
    have h2 : ('/' :: '/' :: x :: rest).take 2 = S "//" ∧
        ('/' :: '/' :: x :: rest).take 3 ≠ S "///" := by
      constructor
      · rw [S_slash2]
        simp [List.take]
      · rw [S_slash3]
        intro hh
        simp [List.take] at hh
        exact hx hh
    unfold initialSlashes
    rw [if_pos h2]

/-- Structure of `normpath` on a nonempty input. -/
theorem normpath_spec (p : Str) (hp : p ≠ []) :
    isNormed (initialSlashes p)
      ((splitOnSlash p).foldl (npStep (initialSlashes p)) []) ∧
    ((List.replicate (initialSlashes p) '/' ++
        joinSlash ((splitOnSlash p).foldl (npStep (initialSlashes p)) []) = [] ∧
      normpath p = S ".") ∨
     (List.replicate (initialSlashes p) '/' ++
        joinSlash ((splitOnSlash p).foldl (npStep (initialSlashes p)) []) ≠ [] ∧
      normpath p = List.replicate (initialSlashes p) '/' ++
        joinSlash ((splitOnSlash p).foldl (npStep (initialSlashes p)) []))) := by
  constructor
  · exact foldl_npStep_isNormed _ _ []
      (mem_splitOnSlash_no_slash p) (isNormed_nil _)
  · unfold normpath
    rw [if_neg hp]
    dsimp only
    split
    · exact Or.inl ⟨by assumption, rfl⟩
    · exact Or.inr ⟨by assumption, rfl⟩

/-- `normpath` never returns the empty string. -/
theorem normpath_ne_nil (p : Str) : normpath p ≠ [] := by
  unfold normpath
  split
  · simp [S_dot]
  · dsimp only
    split
    · simp [S_dot]
    · assumption

/-- `normpath` output ends in `/` only for the roots `/` and `//`. -/
theorem normpath_last_slash (p : Str) :
    (normpath p).getLast? = some '/' ↔ normpath p = S "/" ∨ normpath p = S "//" := by
  constructor
  · intro h
    by_cases hp : p = []
    · rw [hp] at h
      simp [normpath, S_dot] at h
    · obtain ⟨hni, hcase⟩ := normpath_spec p hp
      rcases hcase with ⟨_, hnp⟩ | ⟨houtne, hnp⟩
      · rw [hnp, S_dot] at h
        simp at h
      · rw [hnp] at h ⊢
        set k := initialSlashes p with hkdef
        set acc := (splitOnSlash p).foldl (npStep k) [] with haccdef
        clear_value acc
        have hk2 : k ≤ 2 := hkdef ▸ initialSlashes_le p
        cases acc with
        | nil =>
          interval_cases k
          · simp [joinSlash] at houtne
          · exact Or.inl (by rw [S_slash]; rfl)
          · exact Or.inr (by rw [S_slash2]; rfl)
        | cons c cs =>
          exfalso
          have hjoin_ne : joinSlash (c :: cs) ≠ [] :=
            joinSlash_ne_nil _ (by simp)
              (fun y hy => (hni.1 y hy).1)
          rw [List.getLast?_append_of_ne_nil _ hjoin_ne] at h
          exact joinSlash_getLast?_ne_slash (c :: cs) (by simp)
            (fun y hy => ⟨(hni.1 y hy).1, (hni.1 y hy).2.2⟩) h
  · intro h
    rcases h with h | h <;> rw [h] <;> rfl

/-- `normpath` is idempotent. -/
theorem normpath_idem (p : Str) : normpath (normpath p) = normpath p := by
  by_cases hp : p = []
  · rw [hp]
    decide
  · obtain ⟨hni, hcase⟩ := normpath_spec p hp
    rcases hcase with ⟨_, hnp⟩ | ⟨houtne, hnp⟩
    · rw [hnp]
      decide
    · rw [hnp]
      set k := initialSlashes p with hkdef
      set acc := (splitOnSlash p).foldl (npStep k) [] with haccdef
      clear_value acc
      have hk2 : k ≤ 2 := hkdef ▸ initialSlashes_le p
      cases acc with
      | nil =>
        interval_cases k
        · simp [joinSlash] at houtne
        · decide
        · decide
      | cons c cs =>
        have hch : ∃ x t, joinSlash (c :: cs) = x :: t ∧ x ≠ '/' := by
          obtain ⟨t, ht⟩ := joinSlash_head_cons c cs
          have hcg := hni.1 c (List.mem_cons_self c cs)
          cases hc : c with
          | nil => exact absurd hc hcg.1
          | cons x c' =>
            refine ⟨x, c' ++ t, by rw [hc] at ht; simpa using ht, ?_⟩
            intro hxs
            exact hcg.2.2 (hc ▸ (hxs ▸ List.mem_cons_self x c'))
        obtain ⟨x, t, hxt, hx⟩ := hch
        have hkval : initialSlashes (List.replicate k '/' ++ joinSlash (c :: cs)) = k := by
          rw [hxt]
          exact initialSlashes_rep k hk2 x hx t
        have hsplit : splitOnSlash (List.replicate k '/' ++ joinSlash (c :: cs)) =
            List.replicate k [] ++ (c :: cs) := by
          rw [splitOnSlash_replicate,
            splitOnSlash_joinSlash (c :: cs) (by simp)
              (fun y hy => (hni.1 y hy).2.2)]
        unfold normpath
        dsimp only
        rw [if_neg houtne, hkval, hsplit, List.foldl_append, foldl_npStep_replicate,
          foldl_npStep_refold k (c :: cs) [] (by simpa using hni)]
        simp only [List.nil_append]
        rw [if_neg houtne]

/-- Appending a trailing slash does not change `normpath`, except on the
roots. -/
theorem normpath_append_slash (x : Str) (h0 : x ≠ []) (h1 : x ≠ S "/")
    (h2 : x ≠ S "//") : normpath (x ++ S "/") = normpath x := by
  have hins : initialSlashes (x ++ S "/") = initialSlashes x := by
    cases x with
    | nil => exact absurd rfl h0
    | cons c1 r1 =>
      cases r1 with
      | nil =>
        have hc1 : c1 ≠ '/' := by
          intro hh
          exact h1 (by rw [hh, S_slash])
        have e2 : ¬(([c1] ++ S "/").take 2 = S "//" ∧
            ([c1] ++ S "/").take 3 ≠ S "///") := by
          rintro ⟨hand, -⟩
          rw [S_slash2] at hand
          simp [S_slash, List.take] at hand
          exact hc1 hand
        have e2' : ¬(([c1] : Str).take 2 = S "//" ∧
            ([c1] : Str).take 3 ≠ S "///") := by
          rintro ⟨hand, -⟩
          rw [S_slash2] at hand
          simp [List.take] at hand
        have e1 : ¬(([c1] ++ S "/").take 1 = S "/") := by
          intro hh
          rw [S_slash] at hh
          simp [S_slash, List.take] at hh
          exact hc1 hh
        have e1' : ¬(([c1] : Str).take 1 = S "/") := by
          intro hh
          rw [S_slash] at hh
          simp [List.take] at hh
          exact hc1 hh
        unfold initialSlashes
        rw [if_neg e2, if_neg e1, if_neg e2', if_neg e1']
      | cons c2 r2 =>
        cases r2 with
        | nil =>
          by_cases hc1 : c1 = '/'
          · have hc2 : c2 ≠ '/' := by
              intro hh
              exact h2 (by rw [hc1, hh, S_slash2])
            have e2 : ¬(([c1, c2] ++ S "/").take 2 = S "//" ∧
                ([c1, c2] ++ S "/").take 3 ≠ S "///") := by
              rintro ⟨hand, -⟩
              rw [S_slash2] at hand
              simp [S_slash, List.take] at hand
              exact hc2 hand.2
            have e2' : ¬(([c1, c2] : Str).take 2 = S "//" ∧
                ([c1, c2] : Str).take 3 ≠ S "///") := by
              rintro ⟨hand, -⟩
              rw [S_slash2] at hand
              simp [List.take] at hand
              exact hc2 hand.2
            have e1 : ([c1, c2] ++ S "/").take 1 = S "/" := by
              rw [S_slash, hc1]
              simp [List.take]
            have e1' : ([c1, c2] : Str).take 1 = S "/" := by
              rw [S_slash, hc1]
              simp [List.take]
            unfold initialSlashes
            rw [if_neg e2, if_pos e1, if_neg e2', if_pos e1']
          · have e2 : ¬(([c1, c2] ++ S "/").take 2 = S "//" ∧
                ([c1, c2] ++ S "/").take 3 ≠ S "///") := by
              rintro ⟨hand, -⟩
              rw [S_slash2] at hand
              simp [S_slash, List.take] at hand
              exact hc1 hand.1
            have e2' : ¬(([c1, c2] : Str).take 2 = S "//" ∧
                ([c1, c2] : Str).take 3 ≠ S "///") := by
              rintro ⟨hand, -⟩
              rw [S_slash2] at hand
              simp [List.take] at hand
              exact hc1 hand.1
            have e1 : ¬(([c1, c2] ++ S "/").take 1 = S "/") := by
              intro hh
              rw [S_slash] at hh
              simp [S_slash, List.take] at hh
              exact hc1 hh
            have e1' : ¬(([c1, c2] : Str).take 1 = S "/") := by
              intro hh
              rw [S_slash] at hh
              simp [List.take] at hh
              exact hc1 hh
            unfold initialSlashes
            rw [if_neg e2, if_neg e1, if_neg e2', if_neg e1']
        | cons c3 r3 =>
          have hlen : 3 ≤ (c1 :: c2 :: c3 :: r3).length := by
            simp only [List.length_cons]
            omega
          unfold initialSlashes
          rw [take_append_of_le 2 _ _ (by omega), take_append_of_le 3 _ _ hlen,
            take_append_of_le 1 _ _ (by omega)]
  unfold normpath
  rw [if_neg (by simp [S_slash] : ¬(x ++ S "/" = [])), if_neg h0, hins,
    splitOnSlash_append_slash]
  dsimp only
  rw [List.foldl_append]
  simp only [List.foldl_cons, List.foldl_nil, npStep_nil_comp]

/-- The definitional shape of `posixPath1`. -/
theorem posixPath1_def (env : VEnv) (p : Str) :
    posixPath1 env p = if keepTrailingSlash p then
      normpath (ppPrep env p) ++ S "/" else normpath (ppPrep env p) := rfl

/-- `replaceBackslash` leaves no backslash behind. -/
theorem replaceBackslash_no_bs (l : Str) : '\\' ∉ replaceBackslash l := by
  unfold replaceBackslash
  intro h
  obtain ⟨c, hc, heq⟩ := List.mem_map.1 h
  by_cases hb : c = '\\'
  · rw [if_pos hb] at heq
    exact absurd heq (by decide)
  · rw [if_neg hb] at heq
    exact hb heq

/-- A backslash-free list is unchanged by `replaceBackslash`. -/
theorem replaceBackslash_id (l : Str) (h : '\\' ∉ l) : replaceBackslash l = l := by
  unfold replaceBackslash
  have hcongr : ∀ c ∈ l, (if c = '\\' then '/' else c) = c := by
    intro c hc
    exact if_neg (fun hh => h (by rw [← hh]; exact hc))
  rw [List.map_congr_left hcongr]
  exact List.map_id l

/-- Elements surviving the fold come from the accumulator or the input. -/
theorem mem_foldl_npStep (k : Nat) (comps : List Str) :
    ∀ acc e, e ∈ List.foldl (npStep k) acc comps → e ∈ acc ∨ e ∈ comps := by
  induction comps with
  | nil => intro acc e h; exact Or.inl h
  | cons c rest ih =>
    intro acc e h
    rw [List.foldl_cons] at h
    rcases ih _ e h with h' | h'
    · unfold npStep at h'
      split at h'
      · exact Or.inl h'
      · split at h'
        · rcases List.mem_append.1 h' with h'' | h''
          · exact Or.inl h''
          · exact Or.inr (List.mem_cons.2 (Or.inl (by simpa using h'')))
        · split at h'
          · exact Or.inl ((List.dropLast_sublist acc).subset h')
          · exact Or.inl h'
    · exact Or.inr (List.mem_cons.2 (Or.inr h'))

/-- Characters of `normpath p` come from `p`, `/` or `.`. -/
theorem mem_normpath (p : Str) (ch : Char) (h : ch ∈ normpath p) :
    ch ∈ p ∨ ch = '/' ∨ ch = '.' := by
  unfold normpath at h
  split at h
  · rw [S_dot] at h
    simp at h
    exact Or.inr (Or.inr h)
  · dsimp only at h
    split at h
    · rw [S_dot] at h
      simp at h
      exact Or.inr (Or.inr h)
    · rcases List.mem_append.1 h with h' | h'
      · exact Or.inr (Or.inl (List.eq_of_mem_replicate h'))
      · rcases mem_joinSlash_chars _ ch h' with ⟨c, hc, hchc⟩ | h''
        · rcases mem_foldl_npStep _ _ [] c hc with h0 | h0
          · simp at h0
          · exact Or.inl (mem_splitOnSlash_chars p c h0 ch hchc)
        · exact Or.inr (Or.inl h'')

/-- The resolver's output contains no backslash. -/
theorem posixPath1_no_bs (env : VEnv) (p : Str) : '\\' ∉ posixPath1 env p := by
  rw [posixPath1_def]
  intro h
  have hmem : '\\' ∈ normpath (ppPrep env p) := by
    split at h
    · rcases List.mem_append.1 h with h' | h'
      · exact h'
      · rw [S_slash] at h'
        simp at h'
    · exact h
  rcases mem_normpath _ _ hmem with h' | h' | h'
  · unfold ppPrep at h'
    exact replaceBackslash_no_bs _ h'
  · exact absurd h' (by decide)
  · exact absurd h' (by decide)

/-- Claim C7, amended: for every non-empty input, the output ends with
`/` iff the input ended with a separator (`/` or `\`) **or** the
normalised core is a root (`/` or `//`) — normalisation can collapse a
path such as `/a/..` to `/`, which ends in a slash although the input did
not. -/
theorem c7_amended (env : VEnv) (p : Str) (hp : p ≠ []) :
    ((posixPath1 env p).getLast? = some '/' ↔
      (p.getLast? = some '/' ∨ p.getLast? = some '\\') ∨
      normpath (ppPrep env p) = S "/" ∨ normpath (ppPrep env p) = S "//") := by
  rw [posixPath1_def]
  by_cases hk : keepTrailingSlash p
  · rw [if_pos hk]
    constructor
    · intro _
      left
      rcases hk with ⟨_, hlast⟩ | hlast | hnil
      · exact Or.inl hlast
      · exact Or.inr hlast
      · exact absurd hnil hp
    · intro _
      rw [S_slash, List.getLast?_append_of_ne_nil _ (by simp)]
      rfl
  · rw [if_neg hk]
    have hk' := hk
    unfold keepTrailingSlash at hk'
    push_neg at hk'
    obtain ⟨hk1, hk2, _⟩ := hk'
    constructor
    · intro h
      exact Or.inr ((normpath_last_slash _).1 h)
    · intro h
      rcases h with hsep | hroot
      · rcases hsep with h1 | h1
        · have hp' : p = S "/" := by
            by_contra hne
            exact (hk1 hne) h1
          rw [hp']
          rfl
        · exact absurd h1 hk2
      · exact (normpath_last_slash _).2 hroot

/-- Claim C7, witness: `a/b/` keeps its trailing slash and `a/b` gets
none. -/
theorem c7_witness :
    (((posixPath1 noEnv (S "a/b")).getLast? = some '/' ↔
      ((S "a/b").getLast? = some '/' ∨ (S "a/b").getLast? = some '\\') ∨
      normpath (ppPrep noEnv (S "a/b")) = S "/" ∨
      normpath (ppPrep noEnv (S "a/b")) = S "//")) ∧
    (posixPath1 noEnv (S "a/b/")).getLast? = some '/' ∧
    (posixPath1 noEnv (S "a/b")).getLast? ≠ some '/' := by
  exact ⟨c7_amended noEnv (S "a/b") (by decide), by decide, by decide⟩

/-- Claim C8, amended: the resolver is idempotent on every input whose
resolved output is stable under variable expansion and whitespace
stripping and is not the preserved double-slash root (`//`, or `///`
with the trailing-separator append).  The counterexample `//` shows the
root exception is necessary; re-expansion of `$` text and stripping of
whitespace that normalisation can expose are the other two failure
sources. -/
theorem c8_amended (env : VEnv) (p : Str)
    (h1 : expandvars env (posixPath1 env p) = posixPath1 env p)
    (h2 : pyStrip (posixPath1 env p) = posixPath1 env p)
    (h3 : posixPath1 env p ≠ S "//")
    (h4 : posixPath1 env p ≠ S "///") :
    posixPath1 env (posixPath1 env p) = posixPath1 env p := by
  have hnb : '\\' ∉ posixPath1 env p := posixPath1_no_bs env p
  have hprep : ppPrep env (posixPath1 env p) = posixPath1 env p := by
    unfold ppPrep
    rw [h1, h2, replaceBackslash_id _ hnb]
  by_cases hk : keepTrailingSlash p
  · have hq : posixPath1 env p = normpath (ppPrep env p) ++ S "/" := by
      rw [posixPath1_def, if_pos hk]
    have hnne : normpath (ppPrep env p) ≠ [] := normpath_ne_nil _
    have hn1 : normpath (ppPrep env p) ≠ S "/" := by
      intro hh
      apply h3
      rw [hq, hh]
      rfl
    have hn2 : normpath (ppPrep env p) ≠ S "//" := by
      intro hh
      apply h4
      rw [hq, hh]
      rfl
    have hkq : keepTrailingSlash (posixPath1 env p) := by
      rw [hq]
      left
      constructor
      · intro hh
        apply hnne
        rw [S_slash] at hh
        cases hcase : normpath (ppPrep env p) with
        | nil => rfl
        | cons a as =>
          rw [hcase] at hh
          simp [S_slash] at hh
      · rw [S_slash, List.getLast?_append_of_ne_nil _ (by simp)]
        rfl
    rw [posixPath1_def env (posixPath1 env p), if_pos hkq, hprep, hq,
      normpath_append_slash _ hnne hn1 hn2, normpath_idem]
  · have hq : posixPath1 env p = normpath (ppPrep env p) := by
      rw [posixPath1_def, if_neg hk]
    have hkq : ¬keepTrailingSlash (posixPath1 env p) := by
      rw [hq]
      intro hcon
      rcases hcon with ⟨hne, hlast⟩ | hlast | hnil
      · rcases (normpath_last_slash _).1 hlast with hr | hr
        · exact hne hr
        · exact h3 (hq ▸ hr)
      · apply hnb
        rw [hq]
        exact mem_of_getLast?_eq _ _ hlast
      · exact normpath_ne_nil _ hnil
    rw [posixPath1_def env (posixPath1 env p), if_neg hkq, hprep, hq,
      normpath_idem]

/-- Claim C8, witness: `a/b/` resolves to itself twice over. -/
theorem c8_witness :
    (expandvars noEnv (posixPath1 noEnv (S "a/b/")) = posixPath1 noEnv (S "a/b/")) ∧
    (pyStrip (posixPath1 noEnv (S "a/b/")) = posixPath1 noEnv (S "a/b/")) ∧
    posixPath1 noEnv (posixPath1 noEnv (S "a/b/")) = posixPath1 noEnv (S "a/b/") := by
  exact ⟨by decide, by decide,
    c8_amended noEnv (S "a/b/") (by decide) (by decide) (by decide) (by decide)⟩

/-! ## Association-list lemmas for the variable environment -/

/-- Updating writes the key. -/
theorem alookup_aupdate_self (l : List (Str × Option Str)) (k : Str) (v : Option Str) :
    alookup (aupdate l k v) k = some v := by
  induction l with
  | nil => simp [aupdate, alookup]
  | cons kv t ih =>
    obtain ⟨k', v'⟩ := kv
    by_cases h : k' = k
    · simp [aupdate, alookup, h]
    · simp [aupdate, alookup, h, ih]

/-- Updating leaves other keys alone. -/
theorem alookup_aupdate_other (l : List (Str × Option Str)) (k x : Str)
    (v : Option Str) (h : x ≠ k) : alookup (aupdate l k v) x = alookup l x := by
  induction l with
  | nil =>
    simp only [aupdate, alookup]
    rw [if_neg (fun hh : k = x => h hh.symm)]
  | cons kv t ih =>
    obtain ⟨k', v'⟩ := kv
    by_cases hk : k' = k
    · subst hk
      have hkx : k' ≠ x := fun hh => h hh.symm
      simp only [aupdate, if_pos rfl, alookup, if_neg hkx]
    · simp only [aupdate, if_neg hk]
      by_cases hx : k' = x
      · simp only [alookup, if_pos hx]
      · simp only [alookup, if_neg hx, ih]

/-- A key the list does not mention looks up to `none`. -/
theorem alookup_eq_none_of_not_mem (l : List (Str × Option Str)) (k : Str)
    (h : k ∉ l.map Prod.fst) : alookup l k = none := by
  induction l with
  | nil => rfl
  | cons kv t ih =>
    obtain ⟨k', v'⟩ := kv
    have h1 : k' ≠ k := by
      intro hh
      exact h (by simp [hh])
    have h2 : k ∉ t.map Prod.fst := fun hh => h (by simp [hh])
    simp [alookup, h1, ih h2]

/-- A mentioned key looks up to something. -/
theorem alookup_ne_none_of_mem (l : List (Str × Option Str)) (k : Str)
    (v : Option Str) (h : (k, v) ∈ l) : alookup l k ≠ none := by
  induction l with
  | nil => simp at h
  | cons kv t ih =>
    obtain ⟨k', v'⟩ := kv
    by_cases hk : k' = k
    · simp [alookup, hk]
    · rcases List.mem_cons.1 h with hh | hh
      · exact absurd (congrArg Prod.fst hh).symm hk
      · simp [alookup, hk, ih hh]

/-- Looked-up entries are members. -/
theorem mem_of_alookup (l : List (Str × Option Str)) (k : Str) (w : Option Str)
    (h : alookup l k = some w) : (k, w) ∈ l := by
  induction l with
  | nil => simp [alookup] at h
  | cons kv t ih =>
    obtain ⟨k', v'⟩ := kv
    by_cases hk : k' = k
    · rw [alookup, if_pos hk] at h
      subst hk
      exact List.mem_cons.2 (Or.inl (by simpa using h.symm))
    · rw [alookup, if_neg hk] at h
      exact List.mem_cons.2 (Or.inr (ih h))

/-- With unique keys, members determine the lookup. -/
theorem alookup_of_mem_nodup (l : List (Str × Option Str)) (k : Str)
    (v : Option Str) (hn : (l.map Prod.fst).Nodup) (h : (k, v) ∈ l) :
    alookup l k = some v := by
  induction l with
  | nil => simp at h
  | cons kv t ih =>
    obtain ⟨k', v'⟩ := kv
    rw [List.map_cons, List.nodup_cons] at hn
    rcases List.mem_cons.1 h with hh | hh
    · obtain ⟨h1, h2⟩ := Prod.mk.inj hh.symm
      simp [alookup, h1, h2]
    · have hk : k' ≠ k := by
        intro he
        exact hn.1 (he ▸ (List.mem_map.2 ⟨(k, v), hh, rfl⟩))
      simp [alookup, hk, ih hn.2 hh]

/-- Filtering keeps the lookup of a kept member (unique keys). -/
theorem alookup_filter_of_mem (p : Str × Option Str → Bool)
    (l : List (Str × Option Str)) (k : Str) (w : Option Str)
    (hn : (l.map Prod.fst).Nodup) (hmem : (k, w) ∈ l) (hp : p (k, w) = true) :
    alookup (l.filter p) k = some w := by
  induction l with
  | nil => simp at hmem
  | cons kv t ih =>
    obtain ⟨k', v'⟩ := kv
    rw [List.map_cons, List.nodup_cons] at hn
    rcases List.mem_cons.1 hmem with hh | hh
    · obtain ⟨h1, h2⟩ := Prod.mk.inj hh.symm
      subst h1
      subst h2
      rw [List.filter_cons_of_pos hp]
      simp [alookup]
    · have hk : k' ≠ k := by
        intro he
        exact hn.1 (he ▸ (List.mem_map.2 ⟨(k, w), hh, rfl⟩))
      by_cases hpk : p (k', v') = true
      · rw [List.filter_cons_of_pos hpk, alookup, if_neg hk]
        exact ih hn.2 hh
      · rw [List.filter_cons_of_neg (by simpa using hpk)]
        exact ih hn.2 hh

/-- Filtering erases the lookup of a dropped member (unique keys). -/
theorem alookup_filter_of_dropped (p : Str × Option Str → Bool)
    (l : List (Str × Option Str)) (k : Str) (w : Option Str)
    (hn : (l.map Prod.fst).Nodup) (hmem : (k, w) ∈ l) (hp : p (k, w) = false) :
    alookup (l.filter p) k = none := by
  induction l with
  | nil => simp at hmem
  | cons kv t ih =>
    obtain ⟨k', v'⟩ := kv
    rw [List.map_cons, List.nodup_cons] at hn
    rcases List.mem_cons.1 hmem with hh | hh
    · obtain ⟨h1, h2⟩ := Prod.mk.inj hh.symm
      subst h1
      subst h2
      rw [List.filter_cons_of_neg (by simpa using hp)]
      apply alookup_eq_none_of_not_mem
      intro hk
      obtain ⟨⟨k2, v2⟩, hmem2, heq⟩ := List.mem_map.1 hk
      have : (k2, v2) ∈ t := List.mem_of_mem_filter hmem2
      exact hn.1 (List.mem_map.2 ⟨(k2, v2), this, heq⟩)
    · have hk : k' ≠ k := by
        intro he
        exact hn.1 (he ▸ (List.mem_map.2 ⟨(k, w), hh, rfl⟩))
      by_cases hpk : p (k', v') = true
      · rw [List.filter_cons_of_pos hpk, alookup, if_neg hk]
        exact ih hn.2 hh
      · rw [List.filter_cons_of_neg (by simpa using hpk)]
        exact ih hn.2 hh

/-- Filtering cannot invent a key. -/
theorem alookup_filter_of_none (p : Str × Option Str → Bool)
    (l : List (Str × Option Str)) (k : Str) (h : alookup l k = none) :
    alookup (l.filter p) k = none := by
  induction l with
  | nil => rfl
  | cons kv t ih =>
    obtain ⟨k', v'⟩ := kv
    by_cases hk : k' = k
    · rw [alookup, if_pos hk] at h
      simp at h
    · rw [alookup, if_neg hk] at h
      by_cases hpk : p (k', v') = true
      · rw [List.filter_cons_of_pos hpk, alookup, if_neg hk]
        exact ih h
      · rw [List.filter_cons_of_neg (by simpa using hpk)]
        exact ih h

/-- Updating a fresh key appends it to the key list. -/
theorem aupdate_fst_of_none (l : List (Str × Option Str)) (k : Str)
    (v : Option Str) (h : alookup l k = none) :
    (aupdate l k v).map Prod.fst = l.map Prod.fst ++ [k] := by
  induction l with
  | nil => simp [aupdate]
  | cons kv t ih =>
    obtain ⟨k', v'⟩ := kv
    by_cases hk : k' = k
    · rw [alookup, if_pos hk] at h
      simp at h
    · rw [alookup, if_neg hk] at h
      simp [aupdate, hk, ih h]

/-- Updating an existing key keeps the key list. -/
theorem aupdate_fst_of_some (l : List (Str × Option Str)) (k : Str)
    (v w : Option Str) (h : alookup l k = some w) :
    (aupdate l k v).map Prod.fst = l.map Prod.fst := by
  induction l with
  | nil => simp [alookup] at h
  | cons kv t ih =>
    obtain ⟨k', v'⟩ := kv
    by_cases hk : k' = k
    · simp [aupdate, hk]
    · rw [alookup, if_neg hk] at h
      simp [aupdate, hk, ih h]

/-- `env_set` preserves the tracking invariant. -/
theorem env_set_inv (e0 : VEnv) (s s' : EnvState) (key val : Str)
    (hinv : envInv e0 s) (hset : env_set s key val = .ok s') :
    envInv e0 s' := by
  obtain ⟨hn, hinv'⟩ := hinv
  unfold env_set at hset
  split at hset
  · exact absurd hset (by simp)
  · rw [Except.ok.injEq] at hset
    subst hset
    cases henv : s.env key with
    | some oldv =>
      dsimp only
      by_cases hlk : alookup s.orig key = none
      · -- fresh backup of an existing value
        refine ⟨?_, ?_⟩
        · rw [if_pos hlk, aupdate_fst_of_none _ _ _ hlk, List.nodup_append]
          refine ⟨hn, by simp, ?_⟩
          intro x hx hx2
          have hxk : x = key := by simpa using hx2
          subst hxk
          obtain ⟨⟨k2, v2⟩, hm, he⟩ := List.mem_map.1 hx
          have hk2 : k2 = x := he
          subst hk2
          exact alookup_ne_none_of_mem _ _ _ hm hlk
        · intro x
          rw [if_pos hlk]
          by_cases hx : x = key
          · subst hx
            rw [alookup_aupdate_self]
            refine ⟨by intro hh; simp at hh, ?_, by intro hv; simp at hv⟩
            intro v hv
            have hov : oldv = v := by simpa using hv
            subst hov
            refine ⟨?_, by simp [envSetF]⟩
            rw [← (hinv' x).1 hlk]
            exact henv
          · rw [alookup_aupdate_other _ _ _ _ hx]
            simp only [envSetF, if_neg hx]
            exact hinv' x
      · -- key already backed up: orig unchanged
        refine ⟨by rw [if_neg hlk]; exact hn, ?_⟩
        intro x
        rw [if_neg hlk]
        by_cases hx : x = key
        · subst hx
          refine ⟨fun hc => absurd hc hlk, ?_, ?_⟩
          · intro v hv
            exact ⟨((hinv' x).2.1 v hv).1, by simp [envSetF]⟩
          · intro hv
            exact ⟨((hinv' x).2.2 hv).1, by simp [envSetF]⟩
        · simp only [envSetF, if_neg hx]
          exact hinv' x
    | none =>
      -- key absent: its backup (if any) would claim presence, so it is fresh
      have hlk : alookup s.orig key = none := by
        cases hlk2 : alookup s.orig key with
        | none => rfl
        | some w =>
          exfalso
          cases w with
          | none =>
            have hc := ((hinv' key).2.2 hlk2).2
            rw [henv] at hc
            simp at hc
          | some v =>
            have hc := ((hinv' key).2.1 v hlk2).2
            rw [henv] at hc
            simp at hc
      dsimp only
      refine ⟨?_, ?_⟩
      · rw [aupdate_fst_of_none _ _ _ hlk, List.nodup_append]
        refine ⟨hn, by simp, ?_⟩
        intro x hx hx2
        have hxk : x = key := by simpa using hx2
        subst hxk
        obtain ⟨⟨k2, v2⟩, hm, he⟩ := List.mem_map.1 hx
        have hk2 : k2 = x := he
        subst hk2
        exact alookup_ne_none_of_mem _ _ _ hm hlk
      · intro x
        by_cases hx : x = key
        · subst hx
          rw [alookup_aupdate_self]
          refine ⟨by intro hh; simp at hh, by intro v hv; simp at hv, ?_⟩
          intro _
          refine ⟨?_, by simp [envSetF]⟩
          rw [← (hinv' x).1 hlk]
          exact henv
        · rw [alookup_aupdate_other _ _ _ _ hx]
          simp only [envSetF, if_neg hx]
          exact hinv' x

/-- `env_update` preserves the tracking invariant. -/
theorem env_update_inv (e0 : VEnv) :
    ∀ (pairs : List (Str × Str)) (s s' : EnvState),
      envInv e0 s → env_update s pairs = .ok s' → envInv e0 s' := by
  intro pairs
  induction pairs with
  | nil =>
    intro s s' hinv hup
    unfold env_update at hup
    rw [List.foldlM_nil] at hup
    cases hup
    exact hinv
  | cons kv rest ih =>
    intro s s' hinv hup
    unfold env_update at hup
    rw [List.foldlM_cons] at hup
    cases h1 : env_set s kv.1 kv.2 with
    | error e =>
      rw [h1] at hup
      exact Except.noConfusion hup
    | ok s1 =>
      rw [h1] at hup
      exact ih s1 s' (env_set_inv e0 s s1 kv.1 kv.2 hinv h1) hup

/-- Every write sequence preserves the tracking invariant. -/
theorem applyEnvWrites_inv (e0 : VEnv) :
    ∀ (ws : List EnvWrite) (s s' : EnvState),
      envInv e0 s → applyEnvWrites s ws = .ok s' → envInv e0 s' := by
  intro ws
  induction ws with
  | nil =>
    intro s s' hinv hap
    unfold applyEnvWrites at hap
    rw [List.foldlM_nil] at hap
    cases hap
    exact hinv
  | cons w rest ih =>
    intro s s' hinv hap
    unfold applyEnvWrites at hap
    rw [List.foldlM_cons] at hap
    cases h1 : applyEnvWrite s w with
    | error e =>
      rw [h1] at hap
      exact Except.noConfusion hap
    | ok s1 =>
      rw [h1] at hap
      have hinv1 : envInv e0 s1 := by
        cases w with
        | set k v => exact env_set_inv e0 s s1 k v hinv h1
        | update o => exact env_update_inv e0 o s s1 hinv h1
      exact ih s1 s' hinv1 hap

/-- Under the invariant, the keyless `env_restore` succeeds and restores
the starting environment exactly, emptying the backup. -/
theorem env_restore_all_inv (e0 : VEnv) (s : EnvState) (hinv : envInv e0 s) :
    ∃ t, env_restore_all s = .ok t ∧ (∀ k, t.env k = e0 k) ∧ t.orig = [] := by
  obtain ⟨hn, hinv'⟩ := hinv
  have hguard : (s.orig.filter fun kv =>
      decide (¬(kv.2 = none ∧ (s.env kv.1).isSome))).any
      (fun kv => decide (kv.2 = none)) = false := by
    rw [List.any_eq_false]
    intro kv hkv
    have hmem : kv ∈ s.orig := List.mem_of_mem_filter hkv
    have hpred := List.of_mem_filter hkv
    rw [decide_eq_true_eq] at hpred
    by_cases h2 : kv.2 = none
    · exfalso
      have hlk : alookup s.orig kv.1 = some none :=
        h2 ▸ alookup_of_mem_nodup _ _ _ hn hmem
      exact hpred ⟨h2, ((hinv' kv.1).2.2 hlk).2⟩
    · simpa using h2
  cases hres : env_restore_all s with
  | error e =>
    exfalso
    unfold env_restore_all at hres
    rw [if_neg (by rw [hguard]; simp)] at hres
    exact Except.noConfusion hres
  | ok t =>
    refine ⟨t, rfl, ?_, ?_⟩
    · intro k
      unfold env_restore_all at hres
      rw [if_neg (by rw [hguard]; simp), Except.ok.injEq] at hres
      subst hres
      dsimp only
      cases hlk : alookup s.orig k with
      | none =>
        rw [alookup_filter_of_none _ _ _ hlk]
        dsimp only
        split
        · rename_i hcond
          simp at hcond
        · exact (hinv' k).1 hlk
      | some w =>
        have hmem : (k, w) ∈ s.orig := mem_of_alookup _ _ _ hlk
        cases w with
        | some v =>
          rw [alookup_filter_of_mem _ _ _ _ hn hmem (by simp)]
          exact ((hinv' k).2.1 v hlk).1.symm
        | none =>
          have hsome := ((hinv' k).2.2 hlk).2
          rw [alookup_filter_of_dropped _ _ _ _ hn hmem (by simp [hsome])]
          dsimp only
          split
          · exact ((hinv' k).2.2 hlk).1.symm
          · rename_i hcond
            exact absurd ⟨rfl, hsome⟩ hcond
    · unfold env_restore_all at hres
      rw [if_neg (by rw [hguard]; simp), Except.ok.injEq] at hres
      subst hres
      rfl

/-- Claim C6, confirmed: for every starting environment and every
sequence of `env_set`/`env_update` calls that completes, the keyless
`env_restore()` completes without error and returns the environment to
its exact state before the first write, emptying the backup. -/
theorem c6_confirmed (e0 : VEnv) (ws : List EnvWrite) (k : Str)
    (h : ∃ s, applyEnvWrites ⟨e0, []⟩ ws = .ok s) :
    ((restoredAfter e0 ws).map fun t => t.env k) = some (e0 k) ∧
    ((restoredAfter e0 ws).map fun t => t.orig) = some [] := by
  obtain ⟨s, hs⟩ := h
  have hinv0 : envInv e0 ⟨e0, []⟩ := by
    refine ⟨by simp, ?_⟩
    intro x
    refine ⟨fun _ => rfl, ?_, ?_⟩
    · intro v hv
      simp [alookup] at hv
    · intro hv
      simp [alookup] at hv
  have hinv := applyEnvWrites_inv e0 ws _ s hinv0 hs
  obtain ⟨t, ht, htenv, htorig⟩ := env_restore_all_inv e0 s hinv
  unfold restoredAfter
  rw [hs]
  dsimp only
  rw [ht]
  dsimp only
  exact ⟨by simp [htenv k], by simp [htorig]⟩

/-- Claim C6, witness: a concrete write sequence over a one-variable
environment rolls back exactly. -/
theorem c6_witness :
    (((restoredAfter homeEnv sampleWrites).map fun t => t.env (S "user")) =
      some (homeEnv (S "user")) ∧
     ((restoredAfter homeEnv sampleWrites).map fun t => t.orig) = some []) ∧
    (((restoredAfter homeEnv sampleWrites).map fun t => t.env (S "HOME")) =
      some (homeEnv (S "HOME")) ∧
     ((restoredAfter homeEnv sampleWrites).map fun t => t.orig) = some []) := by
  have hok : (applyEnvWrites ⟨homeEnv, []⟩ sampleWrites).isOk = true := by rfl
  have h : ∃ s, applyEnvWrites ⟨homeEnv, []⟩ sampleWrites = .ok s := by
    cases hres : applyEnvWrites ⟨homeEnv, []⟩ sampleWrites with
    | ok s => exact ⟨s, rfl⟩
    | error e =>
      rw [hres] at hok
      simp [Except.isOk, Except.toBool] at hok
  exact ⟨c6_confirmed homeEnv sampleWrites (S "user") h,
         c6_confirmed homeEnv sampleWrites (S "HOME") h⟩
